import Mathlib

/-!
Verification of the steamrip scraper's synchronization core
(`src/scrape_steamrip.py`).

The shallow embedding below translates, from the source:
  * the SQLite catalog store (`games`, `runs`, `run_games` tables created by
    `init_db`) as a record of lists of rows,
  * the store operations `get_games_count`, `create_run`, `insert_run_game`,
    `insert_game`, `update_game_last_seen`,
  * the synchronizer `run_persist`,
  * the JSON-feed helpers `load_json_games` and `save_new_games_file`,
  * the name normalizer `clean_name` (with Python regex semantics inlined for
    the three substitutions it performs),
  * the anchor-processing loop of `extract_games_from_html`.

Timestamps are opaque strings supplied by the caller (the Python code takes
them from the clock collaborator); SQLite `AUTOINCREMENT` ids are modelled by
explicit `next_*` counters.
-/

namespace Scraper

/-- A candidate record extracted from markup: the Python dict
`\x7b"Name": ..., "Url": ...\x7d` handed to `run_persist`. -/
structure Candidate where
  Name : String
  Url : String
deriving DecidableEq, Repr

/-- A JSON-artifact entry, same `Name`/`Url` shape as a candidate;
also the element type of `new_entries`. -/
structure Entry where
  Name : String
  Url : String
deriving DecidableEq, Repr

/-- A row of the `games` table: `id`, `Name`, `Url` (UNIQUE), `first_seen`,
`last_seen`. -/
structure GameRow where
  id : Nat
  Name : String
  Url : String
  first_seen : String
  last_seen : String
deriving DecidableEq, Repr

/-- A row of the `runs` table: `id`, `run_at`, `snapshot_count`. -/
structure RunRow where
  id : Nat
  run_at : String
  snapshot_count : Nat
deriving DecidableEq, Repr

/-- A row of the `run_games` table: `id`, `run_id`, `Name`, `Url`, `is_new`
(stored as 0/1, modelled as `Bool`). -/
structure RunGameRow where
  id : Nat
  run_id : Nat
  Name : String
  Url : String
  is_new : Bool
deriving DecidableEq, Repr

/-- The catalog store: the three tables created by `init_db`, plus the next
value of each table's AUTOINCREMENT id. -/
structure DB where
  runs : List RunRow
  run_games : List RunGameRow
  games : List GameRow
  next_run_id : Nat
  next_run_game_id : Nat
  next_game_id : Nat
deriving DecidableEq, Repr

/-- The store right after `init_db` on a fresh database file: the three
tables exist and are empty (SQLite AUTOINCREMENT ids start at 1).
`init_db` itself uses CREATE TABLE IF NOT EXISTS, so on an existing store it
is the identity. -/
def emptyDB : DB :=
  { runs := [], run_games := [], games := [],
    next_run_id := 1, next_run_game_id := 1, next_game_id := 1 }

/-- Python `s.rstrip("/")`: remove every trailing slash. -/
def rstripSlash (s : String) : String :=
  ⟨s.data.rdropWhile (fun c => c == '/')⟩

/-- `get_games_count`: `SELECT COUNT(*) FROM games`. -/
def get_games_count (db : DB) : Nat :=
  db.games.length

/-- `create_run`: `INSERT INTO runs(run_at, snapshot_count) VALUES (?, ?)`,
returning `cur.lastrowid`.  (The `conn.commit()` it performs is modelled in
the event-level semantics further below.) -/
def create_run (db : DB) (run_at : String) (snapshot_count : Nat) : Nat × DB :=
  (db.next_run_id,
   { db with
      runs := db.runs ++ [⟨db.next_run_id, run_at, snapshot_count⟩],
      next_run_id := db.next_run_id + 1 })

/-- `insert_run_game`: `INSERT INTO run_games(run_id, Name, Url, is_new)
VALUES (?, ?, ?, ?)`. -/
def insert_run_game (db : DB) (run_id : Nat) (name url : String)
    (is_new : Bool) : DB :=
  { db with
      run_games :=
        db.run_games ++ [⟨db.next_run_game_id, run_id, name, url, is_new⟩],
      next_run_game_id := db.next_run_game_id + 1 }

/-- `insert_game`: `INSERT OR IGNORE INTO games(...)` (the insert is dropped
when a row with the same UNIQUE `Url` exists) followed by
`UPDATE games SET last_seen = ? WHERE Url = ?`. -/
def insert_game (db : DB) (name url seen_at : String) : DB :=
  let db1 :=
    if db.games.any (fun r => r.Url == url) then db
    else
      { db with
          games := db.games ++ [⟨db.next_game_id, name, url, seen_at, seen_at⟩],
          next_game_id := db.next_game_id + 1 }
  { db1 with
      games := db1.games.map
        (fun r => if r.Url == url then { r with last_seen := seen_at } else r) }

/-- `update_game_last_seen`: `UPDATE games SET last_seen = ? WHERE Url = ?`. -/
def update_game_last_seen (db : DB) (url seen_at : String) : DB :=
  { db with
      games := db.games.map
        (fun r => if r.Url == url then { r with last_seen := seen_at } else r) }

/-- The `for g in results` loop of `run_persist`, threading the store and the
`new_entries` accumulator.  `first_run` and `run_id` are fixed before the
loop, `run_at` is the run timestamp. -/
def persistLoop (first_run : Bool) (run_id : Nat) (run_at : String) :
    DB → List Entry → List Candidate → DB × List Entry
  | db, acc, [] => (db, acc)
  | db, acc, g :: gs =>
    let url := rstripSlash g.Url
    if url = "" then persistLoop first_run run_id run_at db acc gs
    else
      match db.games.find? (fun r => r.Url == url) with
      | some _ =>
        let db1 := update_game_last_seen db url run_at
        let db2 := insert_run_game db1 run_id g.Name url false
        persistLoop first_run run_id run_at db2 acc gs
      | none =>
        let db1 := insert_game db g.Name url run_at
        let is_new_flag := !first_run
        let db2 := insert_run_game db1 run_id g.Name url is_new_flag
        let acc2 := if is_new_flag then acc ++ [⟨g.Name, url⟩] else acc
        persistLoop first_run run_id run_at db2 acc2 gs

/-- `run_persist`: computes `pre_count`, creates the run row, detects
`first_run = (pre_count == 0)`, runs the candidate loop, and returns
`(first_run, new_entries)` together with the mutated store. -/
def run_persist (db : DB) (results : List Candidate) (run_at : String) :
    Bool × List Entry × DB :=
  let pre_count := get_games_count db
  let rd := create_run db run_at results.length
  let first_run := pre_count == 0
  let st := persistLoop first_run rd.1 run_at rd.2 [] results
  (first_run, st.2, st.1)

/-! ### Basic frame lemmas about the store operations -/

theorem update_games_map_url (db : DB) (url t : String) :
    (update_game_last_seen db url t).games.map (fun r => r.Url)
      = db.games.map (fun r => r.Url) := by
  simp only [update_game_last_seen, List.map_map]
  apply List.map_congr_left
  intro r _
  by_cases h : r.Url = url <;> simp [h]

theorem insert_run_game_games (db : DB) (rid : Nat) (n u : String) (b : Bool) :
    (insert_run_game db rid n u b).games = db.games := rfl

theorem insert_run_game_runs (db : DB) (rid : Nat) (n u : String) (b : Bool) :
    (insert_run_game db rid n u b).runs = db.runs := rfl

theorem update_game_last_seen_runs (db : DB) (url t : String) :
    (update_game_last_seen db url t).runs = db.runs := rfl

theorem update_game_last_seen_run_games (db : DB) (url t : String) :
    (update_game_last_seen db url t).run_games = db.run_games := rfl

theorem insert_game_run_games (db : DB) (n u t : String) :
    (insert_game db n u t).run_games = db.run_games := by
  simp only [insert_game]
  by_cases h : db.games.any (fun r => r.Url == u) <;> simp [h]

/-- When no row with url `u` is present, `insert_game` appends exactly one new
row (and the trailing UPDATE leaves the old rows alone). -/
theorem insert_game_games_of_not_mem (db : DB) (n u t : String)
    (h : ∀ r ∈ db.games, r.Url ≠ u) :
    (insert_game db n u t).games
      = db.games ++ [⟨db.next_game_id, n, u, t, t⟩] := by
  have hany : db.games.any (fun r => r.Url == u) = false := by
    simp only [List.any_eq_false]
    intro x hx
    simp [h x hx]
  simp only [insert_game, hany, Bool.false_eq_true, if_false, List.map_append]
  congr 1
  · have hcongr :
        db.games.map
            (fun r => if r.Url == u then { r with last_seen := t } else r)
          = db.games.map id :=
      List.map_congr_left (fun r hr => by simp [h r hr])
    rw [hcongr, List.map_id]
  · simp

/-- The url column of the games table after `insert_game` on a fresh url. -/
theorem insert_game_map_url_of_not_mem (db : DB) (n u t : String)
    (h : ∀ r ∈ db.games, r.Url ≠ u) :
    (insert_game db n u t).games.map (fun r => r.Url)
      = db.games.map (fun r => r.Url) ++ [u] := by
  rw [insert_game_games_of_not_mem db n u t h]
  simp

/-! ### C1: delta correctness -/

/-- C1.  Delta correctness of synchronization: for a catalog holding exactly
two rows with the (normalized) urls of `A` and `B`, `run_persist` on the
ordered batch `[A, B, C]` — where `C`'s url is not in the catalog — returns
`first_run = false` and `new_entries = [C]` (with `C`'s url normalized), and
afterwards the games table holds exactly the three urls of `A`, `B`, `C`,
in that order. -/
theorem run_persist_delta (db : DB) (A B C : Candidate) (gA gB : GameRow)
    (t : String)
    (hg : db.games = [gA, gB])
    (hA : gA.Url = rstripSlash A.Url) (hB : gB.Url = rstripSlash B.Url)
    (hAne : rstripSlash A.Url ≠ "") (hBne : rstripSlash B.Url ≠ "")
    (hCne : rstripSlash C.Url ≠ "")
    (hAB : rstripSlash A.Url ≠ rstripSlash B.Url)
    (hCA : rstripSlash C.Url ≠ rstripSlash A.Url)
    (hCB : rstripSlash C.Url ≠ rstripSlash B.Url) :
    (run_persist db [A, B, C] t).1 = false ∧
    (run_persist db [A, B, C] t).2.1 = [⟨C.Name, rstripSlash C.Url⟩] ∧
    (run_persist db [A, B, C] t).2.2.games.map (fun r => r.Url)
      = [rstripSlash A.Url, rstripSlash B.Url, rstripSlash C.Url] := by
  have bAA : (gA.Url == rstripSlash A.Url) = true := by simp [hA]
  have bBA : (gB.Url == rstripSlash A.Url) = false := by
    simp only [hB, beq_eq_false_iff_ne, ne_eq]
    exact fun h => hAB h.symm
  have bAB2 : (gA.Url == rstripSlash B.Url) = false := by
    simp only [hA, beq_eq_false_iff_ne, ne_eq]
    exact hAB
  have bBB : (gB.Url == rstripSlash B.Url) = true := by simp [hB]
  have bAC : (gA.Url == rstripSlash C.Url) = false := by
    simp only [hA, beq_eq_false_iff_ne, ne_eq]
    exact fun h => hCA h.symm
  have bBC : (gB.Url == rstripSlash C.Url) = false := by
    simp only [hB, beq_eq_false_iff_ne, ne_eq]
    exact fun h => hCB h.symm
  have nAB : (rstripSlash A.Url == rstripSlash B.Url) = false :=
    beq_eq_false_iff_ne.mpr hAB
  have nBA : (rstripSlash B.Url == rstripSlash A.Url) = false :=
    beq_eq_false_iff_ne.mpr hAB.symm
  have nAC : (rstripSlash A.Url == rstripSlash C.Url) = false :=
    beq_eq_false_iff_ne.mpr hCA.symm
  have nBC : (rstripSlash B.Url == rstripSlash C.Url) = false :=
    beq_eq_false_iff_ne.mpr hCB.symm
  simp [run_persist, persistLoop, create_run, get_games_count,
    update_game_last_seen, insert_run_game, insert_game, List.find?,
    hg, hAne, hBne, hCne, bAA, bBA, bAB2, bBB, bAC, bBC, hA, hB,
    nAB, nBA, nAC, nBC, hAB.symm, hCA, hCB]

/-- Witness for C1: a concrete catalog with urls `u/a`, `u/b` and the batch
`[Apple, Beta, Gamma]` (Beta's url carries a trailing slash). -/
theorem run_persist_delta_witness :
    (run_persist
        ⟨[], [], [⟨1, "Apple", "u/a", "t0", "t0"⟩, ⟨2, "Beta", "u/b", "t0", "t0"⟩], 1, 1, 3⟩
        [⟨"Apple", "u/a"⟩, ⟨"Beta", "u/b/"⟩, ⟨"Gamma", "u/g"⟩] "t1").1 = false ∧
    (run_persist
        ⟨[], [], [⟨1, "Apple", "u/a", "t0", "t0"⟩, ⟨2, "Beta", "u/b", "t0", "t0"⟩], 1, 1, 3⟩
        [⟨"Apple", "u/a"⟩, ⟨"Beta", "u/b/"⟩, ⟨"Gamma", "u/g"⟩] "t1").2.1
      = [⟨"Gamma", rstripSlash "u/g"⟩] ∧
    (run_persist
        ⟨[], [], [⟨1, "Apple", "u/a", "t0", "t0"⟩, ⟨2, "Beta", "u/b", "t0", "t0"⟩], 1, 1, 3⟩
        [⟨"Apple", "u/a"⟩, ⟨"Beta", "u/b/"⟩, ⟨"Gamma", "u/g"⟩] "t1").2.2.games.map
        (fun r => r.Url)
      = [rstripSlash "u/a", rstripSlash "u/b/", rstripSlash "u/g"] :=
  run_persist_delta _ ⟨"Apple", "u/a"⟩ ⟨"Beta", "u/b/"⟩ ⟨"Gamma", "u/g"⟩
    ⟨1, "Apple", "u/a", "t0", "t0"⟩ ⟨2, "Beta", "u/b", "t0", "t0"⟩ "t1"
    rfl (by decide) (by decide) (by decide) (by decide) (by decide)
    (by decide) (by decide) (by decide)

/-! ### Loop invariants of `persistLoop` -/

theorem map_url_update (l : List GameRow) (u t : String) :
    (l.map (fun r => if r.Url == u then { r with last_seen := t } else r)).map
        (fun r => r.Url)
      = l.map (fun r => r.Url) := by
  rw [List.map_map]
  apply List.map_congr_left
  intro r _
  by_cases h : r.Url = u <;> simp [h]

/-- The url column after `insert_game`: unchanged when the url was present,
extended by the url otherwise. -/
theorem insert_game_map_url (db : DB) (n u t : String) :
    (insert_game db n u t).games.map (fun r => r.Url)
      = db.games.map (fun r => r.Url)
        ++ (if db.games.any (fun r => r.Url == u) then [] else [u]) := by
  simp only [insert_game]
  by_cases h : db.games.any (fun r => r.Url == u)
  · simp only [if_pos h, map_url_update, List.append_nil]
  · simp only [if_neg h, List.map_append, map_url_update]
    simp

theorem persistLoop_games_url_mono (fr : Bool) (rid : Nat) (t : String) :
    ∀ (gs : List Candidate) (db : DB) (acc : List Entry) (u : String),
      u ∈ db.games.map (fun r => r.Url) →
      u ∈ (persistLoop fr rid t db acc gs).1.games.map (fun r => r.Url) := by
  intro gs
  induction gs with
  | nil => intro db acc u h; simpa [persistLoop] using h
  | cons g gs ih =>
    intro db acc u h
    simp only [persistLoop]
    by_cases hu : rstripSlash g.Url = ""
    · rw [if_pos hu]; exact ih db acc u h
    · rw [if_neg hu]
      cases hfind : db.games.find? (fun r => r.Url == rstripSlash g.Url) with
      | some r =>
        apply ih
        rw [insert_run_game_games, update_game_last_seen, map_url_update]
        exact h
      | none =>
        apply ih
        rw [insert_run_game_games, insert_game_map_url]
        exact List.mem_append_left _ h

theorem persistLoop_run_games_mono (fr : Bool) (rid : Nat) (t : String) :
    ∀ (gs : List Candidate) (db : DB) (acc : List Entry) (rg : RunGameRow),
      rg ∈ db.run_games →
      rg ∈ (persistLoop fr rid t db acc gs).1.run_games := by
  intro gs
  induction gs with
  | nil => intro db acc rg h; simpa [persistLoop] using h
  | cons g gs ih =>
    intro db acc rg h
    simp only [persistLoop]
    by_cases hu : rstripSlash g.Url = ""
    · rw [if_pos hu]; exact ih db acc rg h
    · rw [if_neg hu]
      cases hfind : db.games.find? (fun r => r.Url == rstripSlash g.Url) with
      | some r =>
        apply ih
        simp only [insert_run_game, update_game_last_seen_run_games]
        exact List.mem_append_left _ h
      | none =>
        apply ih
        simp only [insert_run_game, insert_game_run_games]
        exact List.mem_append_left _ h

/-- Every candidate with a non-empty normalized url ends up in the games
table, and gets an association row; on a first run (`fr = true`) that
association has `is_new = false`. -/
theorem persistLoop_processes (fr : Bool) (rid : Nat) (t : String) :
    ∀ (gs : List Candidate) (db : DB) (acc : List Entry),
      ∀ g ∈ gs, rstripSlash g.Url ≠ "" →
        rstripSlash g.Url
            ∈ (persistLoop fr rid t db acc gs).1.games.map (fun r => r.Url) ∧
        ∃ rg ∈ (persistLoop fr rid t db acc gs).1.run_games,
          rg.Url = rstripSlash g.Url ∧ rg.is_new = (if fr then false else rg.is_new) := by
  intro gs
  induction gs with
  | nil => intro db acc g hg; cases hg
  | cons g' gs ih =>
    intro db acc g hg hne
    rcases List.mem_cons.mp hg with hEq | hMem
    · subst hEq
      simp only [persistLoop, if_neg hne]
      cases hfind : db.games.find? (fun r => r.Url == rstripSlash g.Url) with
      | some r =>
        constructor
        · apply persistLoop_games_url_mono
          rw [insert_run_game_games, update_game_last_seen, map_url_update]
          have hr := List.find?_some hfind
          exact List.mem_map.mpr ⟨r, List.mem_of_find?_eq_some hfind, by
            simpa using hr⟩
        · refine ⟨⟨db.next_run_game_id, rid, g.Name, rstripSlash g.Url, false⟩,
            ?_, rfl, by cases fr <;> rfl⟩
          apply persistLoop_run_games_mono
          simp [insert_run_game, update_game_last_seen]
      | none =>
        constructor
        · apply persistLoop_games_url_mono
          rw [insert_run_game_games, insert_game_map_url]
          have hany : db.games.any (fun r => r.Url == rstripSlash g.Url) = false := by
            rw [List.any_eq_false]
            intro x hx
            simpa using List.find?_eq_none.mp hfind x hx
          rw [hany]
          simp
        · refine ⟨⟨(insert_game db g.Name (rstripSlash g.Url) t).next_run_game_id,
            rid, g.Name, rstripSlash g.Url, !fr⟩, ?_, rfl, by cases fr <;> rfl⟩
          apply persistLoop_run_games_mono
          simp [insert_run_game]
    · simp only [persistLoop, if_neg]
      · by_cases hu : rstripSlash g'.Url = ""
        · rw [if_pos hu]; exact ih db acc g hMem hne
        · rw [if_neg hu]
          cases db.games.find? (fun r => r.Url == rstripSlash g'.Url) with
          | some r => exact ih _ _ g hMem hne
          | none => exact ih _ _ g hMem hne

/-- On a first run the accumulator never grows: every appended association
has `is_new = false` and nothing is appended to `new_entries`. -/
theorem persistLoop_first_run_acc (rid : Nat) (t : String) :
    ∀ (gs : List Candidate) (db : DB) (acc : List Entry),
      (persistLoop true rid t db acc gs).2 = acc := by
  intro gs
  induction gs with
  | nil => intro db acc; rfl
  | cons g gs ih =>
    intro db acc
    simp only [persistLoop]
    by_cases hu : rstripSlash g.Url = ""
    · rw [if_pos hu]; exact ih db acc
    · rw [if_neg hu]
      cases db.games.find? (fun r => r.Url == rstripSlash g.Url) with
      | some r => exact ih _ _
      | none => simpa using ih _ _

/-- On a first run every association row appended by the loop carries
`is_new = false`. -/
theorem persistLoop_first_run_not_new (rid : Nat) (t : String) :
    ∀ (gs : List Candidate) (db : DB) (acc : List Entry),
      ∀ rg ∈ (persistLoop true rid t db acc gs).1.run_games,
        rg ∈ db.run_games ∨ rg.is_new = false := by
  intro gs
  induction gs with
  | nil => intro db acc rg h; exact Or.inl h
  | cons g gs ih =>
    intro db acc rg h
    simp only [persistLoop] at h
    by_cases hu : rstripSlash g.Url = ""
    · rw [if_pos hu] at h; exact ih db acc rg h
    · rw [if_neg hu] at h
      cases hfind : db.games.find? (fun r => r.Url == rstripSlash g.Url) with
      | some r =>
        rw [hfind] at h
        rcases ih _ _ rg h with hmem | hnew
        · simp only [insert_run_game, update_game_last_seen_run_games,
            List.mem_append, List.mem_singleton] at hmem
          rcases hmem with hmem | hmem
          · exact Or.inl hmem
          · subst hmem; exact Or.inr rfl
        · exact Or.inr hnew
      | none =>
        rw [hfind] at h
        rcases ih _ _ rg h with hmem | hnew
        · simp only [insert_run_game, insert_game_run_games,
            List.mem_append, List.mem_singleton] at hmem
          rcases hmem with hmem | hmem
          · exact Or.inl hmem
          · subst hmem; exact Or.inr rfl
        · exact Or.inr hnew

/-! ### C2: first-run detection -/

/-- C2.  First-run detection: on an empty games table `run_persist` returns
`first_run = true` and `new_entries = []` for every batch; every batch entry
with a non-empty (normalized) url is nevertheless inserted into the catalog
and recorded with an `is_new = false` association, and no association row of
the run is flagged new. -/
theorem run_persist_first_run (db : DB) (results : List Candidate) (t : String)
    (hempty : db.games = []) :
    (run_persist db results t).1 = true ∧
    (run_persist db results t).2.1 = [] ∧
    (∀ g ∈ results, rstripSlash g.Url ≠ "" →
      rstripSlash g.Url
          ∈ (run_persist db results t).2.2.games.map (fun r => r.Url) ∧
      ∃ rg ∈ (run_persist db results t).2.2.run_games,
        rg.Url = rstripSlash g.Url ∧ rg.is_new = false) ∧
    (∀ rg ∈ (run_persist db results t).2.2.run_games,
      rg ∈ db.run_games ∨ rg.is_new = false) := by
  have hcount : get_games_count db == 0 := by
    simp [get_games_count, hempty]
  refine ⟨by simp [run_persist, hcount], ?_, ?_, ?_⟩
  · simp only [run_persist, hcount]
    exact persistLoop_first_run_acc _ t results _ []
  · intro g hg hne
    have h := persistLoop_processes true (create_run db t results.length).1 t
      results (create_run db t results.length).2 [] g hg hne
    simp only [if_pos rfl] at h
    simpa [run_persist, hcount] using h
  · intro rg hrg
    simp only [run_persist, hcount] at hrg
    have h := persistLoop_first_run_not_new (create_run db t results.length).1 t
      results (create_run db t results.length).2 [] rg hrg
    simpa [create_run] using h

/-- Witness for C2: an empty store and a two-candidate batch. -/
theorem run_persist_first_run_witness :
    (run_persist emptyDB [⟨"A", "u/a"⟩, ⟨"B", "u/b"⟩] "t0").1 = true ∧
    (run_persist emptyDB [⟨"A", "u/a"⟩, ⟨"B", "u/b"⟩] "t0").2.1 = [] ∧
    rstripSlash "u/a"
      ∈ (run_persist emptyDB [⟨"A", "u/a"⟩, ⟨"B", "u/b"⟩] "t0").2.2.games.map
          (fun r => r.Url) := by
  have h := run_persist_first_run emptyDB [⟨"A", "u/a"⟩, ⟨"B", "u/b"⟩] "t0" rfl
  exact ⟨h.1, h.2.1, (h.2.2.1 ⟨"A", "u/a"⟩ (by simp) (by decide)).1⟩

/-! ### C5: catalog uniqueness -/

/-- The url column of the games table stays duplicate-free across one
candidate loop: `insert_game` only appends when `find?` came back empty. -/
theorem persistLoop_nodup_urls (fr : Bool) (rid : Nat) (t : String) :
    ∀ (gs : List Candidate) (db : DB) (acc : List Entry),
      (db.games.map (fun r => r.Url)).Nodup →
      ((persistLoop fr rid t db acc gs).1.games.map (fun r => r.Url)).Nodup := by
  intro gs
  induction gs with
  | nil => intro db acc h; simpa [persistLoop] using h
  | cons g gs ih =>
    intro db acc h
    simp only [persistLoop]
    by_cases hu : rstripSlash g.Url = ""
    · rw [if_pos hu]; exact ih db acc h
    · rw [if_neg hu]
      cases hfind : db.games.find? (fun r => r.Url == rstripSlash g.Url) with
      | some r =>
        apply ih
        rw [insert_run_game_games, update_game_last_seen, map_url_update]
        exact h
      | none =>
        apply ih
        rw [insert_run_game_games, insert_game_map_url]
        have hnotmem : ∀ x ∈ db.games, x.Url ≠ rstripSlash g.Url := by
          intro x hx
          simpa using List.find?_eq_none.mp hfind x hx
        have hany : db.games.any (fun r => r.Url == rstripSlash g.Url) = false := by
          rw [List.any_eq_false]
          intro x hx
          simp [hnotmem x hx]
        rw [hany]
        simp only [Bool.false_eq_true, if_false, List.nodup_append,
          List.nodup_singleton]
        refine ⟨h, trivial, ?_⟩
        intro a ha hb
        rcases List.mem_map.mp ha with ⟨x, hx, hax⟩
        rcases List.mem_singleton.mp hb with rfl
        exact hnotmem x hx hax

theorem run_persist_nodup_urls (db : DB) (results : List Candidate) (t : String)
    (h : (db.games.map (fun r => r.Url)).Nodup) :
    ((run_persist db results t).2.2.games.map (fun r => r.Url)).Nodup := by
  exact persistLoop_nodup_urls _ _ t results _ [] h

/-- A whole sequence of synchronization runs, each given by a candidate batch
and its run timestamp, applied to a store. -/
def runBatches : DB → List (List Candidate × String) → DB
  | db, [] => db
  | db, b :: bs => runBatches (run_persist db b.1 b.2).2.2 bs

/-- C5.  Catalog uniqueness invariant: starting from any store whose games
table has pairwise-distinct urls (in particular the freshly initialized empty
store), any sequence of `run_persist` calls — batches colliding with the
catalog or with themselves included — leaves the games table with exactly
one row per distinct url. -/
theorem catalog_unique_urls (db : DB) (batches : List (List Candidate × String))
    (h : (db.games.map (fun r => r.Url)).Nodup) :
    ((runBatches db batches).games.map (fun r => r.Url)).Nodup := by
  induction batches generalizing db with
  | nil => simpa [runBatches] using h
  | cons b bs ih =>
    simp only [runBatches]
    exact ih _ (run_persist_nodup_urls db b.1 b.2 h)

/-- Witness for C5: a fresh store, a batch with an internal duplicate and a
second batch re-observing the same url. -/
theorem catalog_unique_urls_witness :
    ((runBatches emptyDB
        [([⟨"A", "u/a"⟩, ⟨"A again", "u/a/"⟩], "t1"), ([⟨"A", "u/a"⟩], "t2")]).games.map
        (fun r => r.Url)).Nodup :=
  catalog_unique_urls emptyDB
    [([⟨"A", "u/a"⟩, ⟨"A again", "u/a/"⟩], "t1"), ([⟨"A", "u/a"⟩], "t2")]
    (by simp [emptyDB])

/-! ### C10: duplicate urls within one batch -/

/-- Loop invariant behind the duplicate-in-batch behavior: every accumulated
`new_entries` url is already catalogued, so a url can be appended at most
once. -/
theorem persistLoop_acc_nodup (fr : Bool) (rid : Nat) (t : String) :
    ∀ (gs : List Candidate) (db : DB) (acc : List Entry),
      (∀ e ∈ acc, e.Url ∈ db.games.map (fun r => r.Url)) →
      ((acc.map (fun e => e.Url)).Nodup) →
      (((persistLoop fr rid t db acc gs).2).map (fun e => e.Url)).Nodup := by
  intro gs
  induction gs with
  | nil => intro db acc _ h; simpa [persistLoop] using h
  | cons g gs ih =>
    intro db acc hsub h
    simp only [persistLoop]
    by_cases hu : rstripSlash g.Url = ""
    · rw [if_pos hu]; exact ih db acc hsub h
    · rw [if_neg hu]
      cases hfind : db.games.find? (fun r => r.Url == rstripSlash g.Url) with
      | some r =>
        apply ih
        · intro e he
          rw [insert_run_game_games, update_game_last_seen, map_url_update]
          exact hsub e he
        · exact h
      | none =>
        have hnotmem : ∀ x ∈ db.games, x.Url ≠ rstripSlash g.Url := by
          intro x hx
          simpa using List.find?_eq_none.mp hfind x hx
        have hany : db.games.any (fun r => r.Url == rstripSlash g.Url) = false := by
          rw [List.any_eq_false]
          intro x hx
          simp [hnotmem x hx]
        have hurl : (insert_run_game (insert_game db g.Name (rstripSlash g.Url) t)
            rid g.Name (rstripSlash g.Url) (!fr)).games.map (fun r => r.Url)
            = db.games.map (fun r => r.Url) ++ [rstripSlash g.Url] := by
          rw [insert_run_game_games, insert_game_map_url, hany]
          simp
        apply ih
        · intro e he
          rw [hurl]
          cases hb : fr with
          | true =>
            simp only [hb, Bool.not_true] at he
            simp only [Bool.false_eq_true, if_false] at he
            exact List.mem_append_left _ (hsub e he)
          | false =>
            simp only [hb, Bool.not_false, if_pos] at he
            rcases List.mem_append.mp he with he | he
            · exact List.mem_append_left _ (hsub e he)
            · rcases List.mem_singleton.mp he with rfl
              simp
        · cases hb : fr with
          | true => simpa [hb] using h
          | false =>
            simp only [hb, Bool.not_false, if_pos, List.map_append,
              List.map_cons, List.map_nil]
            simp only [List.nodup_append]
            refine ⟨h, List.nodup_singleton _, ?_⟩
            intro a ha hb'
            rcases List.mem_map.mp ha with ⟨e, he, rfl⟩
            have h' := List.mem_singleton.mp hb'
            have : e.Url ∈ db.games.map (fun r => r.Url) := hsub e he
            rcases List.mem_map.mp this with ⟨x, hx, hex⟩
            exact hnotmem x hx (by rw [hex, h'])

/-- A helper: `find?` on a list extended with a matching element, when the
original list had no match. -/
theorem find?_append_singleton {α : Type} (l : List α) (x : α) (p : α → Bool)
    (h : l.find? p = none) (hx : p x = true) :
    (l ++ [x]).find? p = some x := by
  rw [List.find?_append, h]
  simp [List.find?, hx]

/-! Symbolic stepping equations for `persistLoop` and `create_run`. -/

theorem persistLoop_nil (fr : Bool) (rid : Nat) (t : String) (db : DB)
    (acc : List Entry) : persistLoop fr rid t db acc [] = (db, acc) := rfl

theorem persistLoop_cons_found (fr : Bool) (rid : Nat) (t : String) (db : DB)
    (acc : List Entry) (g : Candidate) (gs : List Candidate) (r : GameRow)
    (hne : rstripSlash g.Url ≠ "")
    (hfind : db.games.find? (fun x => x.Url == rstripSlash g.Url) = some r) :
    persistLoop fr rid t db acc (g :: gs)
      = persistLoop fr rid t
          (insert_run_game (update_game_last_seen db (rstripSlash g.Url) t)
            rid g.Name (rstripSlash g.Url) false) acc gs := by
  simp only [persistLoop, if_neg hne, hfind]

theorem persistLoop_cons_not_found (fr : Bool) (rid : Nat) (t : String)
    (db : DB) (acc : List Entry) (g : Candidate) (gs : List Candidate)
    (hne : rstripSlash g.Url ≠ "")
    (hfind : db.games.find? (fun x => x.Url == rstripSlash g.Url) = none) :
    persistLoop fr rid t db acc (g :: gs)
      = persistLoop fr rid t
          (insert_run_game (insert_game db g.Name (rstripSlash g.Url) t)
            rid g.Name (rstripSlash g.Url) (!fr))
          (if !fr then acc ++ [⟨g.Name, rstripSlash g.Url⟩] else acc) gs := by
  simp only [persistLoop, if_neg hne, hfind]

theorem run_persist_eq (db : DB) (results : List Candidate) (t : String) :
    run_persist db results t
      = ((get_games_count db == 0),
         (persistLoop (get_games_count db == 0)
            (create_run db t results.length).1 t
            (create_run db t results.length).2 [] results).2,
         (persistLoop (get_games_count db == 0)
            (create_run db t results.length).1 t
            (create_run db t results.length).2 [] results).1) := rfl

theorem create_run_games (db : DB) (t : String) (n : Nat) :
    (create_run db t n).2.games = db.games := rfl

theorem create_run_run_games (db : DB) (t : String) (n : Nat) :
    (create_run db t n).2.run_games = db.run_games := rfl

theorem insert_game_next_run_game_id (db : DB) (n u t : String) :
    (insert_game db n u t).next_run_game_id = db.next_run_game_id := by
  simp only [insert_game]
  by_cases h : db.games.any (fun r => r.Url == u) <;> simp [h]

/-- C10.  Duplicate urls inside one batch: (a) universally, the `new_entries`
list returned by `run_persist` has pairwise-distinct urls; (b) for a batch of
two candidates whose urls agree after trailing-slash trimming and are not yet
catalogued, only the first creates a games row, only the first can reach
`new_entries` (and does exactly when the catalog was non-empty), and the
second is recorded as an association with `is_new = false`. -/
theorem run_persist_batch_dedup :
    (∀ (db : DB) (results : List Candidate) (t : String),
      (((run_persist db results t).2.1).map (fun e => e.Url)).Nodup) ∧
    (∀ (db : DB) (g1 g2 : Candidate) (t : String),
      rstripSlash g2.Url = rstripSlash g1.Url →
      rstripSlash g1.Url ≠ "" →
      (∀ r ∈ db.games, r.Url ≠ rstripSlash g1.Url) →
      (run_persist db [g1, g2] t).2.2.games.map (fun r => r.Url)
          = db.games.map (fun r => r.Url) ++ [rstripSlash g1.Url] ∧
      (db.games = [] → (run_persist db [g1, g2] t).2.1 = []) ∧
      (db.games ≠ [] →
        (run_persist db [g1, g2] t).2.1 = [⟨g1.Name, rstripSlash g1.Url⟩]) ∧
      (∃ a1 a2, (run_persist db [g1, g2] t).2.2.run_games
          = db.run_games ++ [a1, a2] ∧ a2.Url = rstripSlash g1.Url ∧
          a2.is_new = false)) := by
  constructor
  · intro db results t
    exact persistLoop_acc_nodup _ _ t results _ [] (by intro e he; cases he)
      (by simp)
  · intro db g1 g2 t h12 hne hfresh
    have hne2 : rstripSlash g2.Url ≠ "" := by rw [h12]; exact hne
    have hfresh1 : ∀ r ∈ (create_run db t ([g1, g2] : List Candidate).length).2.games,
        r.Url ≠ rstripSlash g1.Url := by
      rw [create_run_games]; exact hfresh
    have hfind1 : (create_run db t ([g1, g2] : List Candidate).length).2.games.find?
        (fun x => x.Url == rstripSlash g1.Url) = none := by
      rw [List.find?_eq_none]
      intro x hx
      simp [hfresh1 x hx]
    have hins : (insert_game (create_run db t ([g1, g2] : List Candidate).length).2
        g1.Name (rstripSlash g1.Url) t).games
        = db.games ++ [⟨db.next_game_id, g1.Name, rstripSlash g1.Url, t, t⟩] := by
      rw [insert_game_games_of_not_mem _ _ _ _ hfresh1, create_run_games]
      rfl
    have hfind2 : (insert_run_game
        (insert_game (create_run db t ([g1, g2] : List Candidate).length).2
          g1.Name (rstripSlash g1.Url) t)
        (create_run db t ([g1, g2] : List Candidate).length).1
        g1.Name (rstripSlash g1.Url) (!(get_games_count db == 0))).games.find?
          (fun x => x.Url == rstripSlash g2.Url)
        = some ⟨db.next_game_id, g1.Name, rstripSlash g1.Url, t, t⟩ := by
      rw [insert_run_game_games, h12, hins]
      apply find?_append_singleton
      · rw [List.find?_eq_none]
        intro x hx
        simp [hfresh x hx]
      · simp
    have hst : persistLoop (get_games_count db == 0)
        (create_run db t ([g1, g2] : List Candidate).length).1 t
        (create_run db t ([g1, g2] : List Candidate).length).2 [] [g1, g2]
        = (insert_run_game
            (update_game_last_seen
              (insert_run_game
                (insert_game (create_run db t ([g1, g2] : List Candidate).length).2
                  g1.Name (rstripSlash g1.Url) t)
                (create_run db t ([g1, g2] : List Candidate).length).1
                g1.Name (rstripSlash g1.Url) (!(get_games_count db == 0)))
              (rstripSlash g1.Url) t)
            (create_run db t ([g1, g2] : List Candidate).length).1
            g2.Name (rstripSlash g1.Url) false,
          if !(get_games_count db == 0)
            then [(⟨g1.Name, rstripSlash g1.Url⟩ : Entry)] else []) := by
      rw [persistLoop_cons_not_found _ _ _ _ _ _ _ hne hfind1,
        persistLoop_cons_found _ _ _ _ _ _ _ _ hne2 hfind2,
        persistLoop_nil]
      simp only [h12, List.nil_append]
    rw [run_persist_eq]
    simp only [hst]
    refine ⟨?_, ?_, ?_, ?_⟩
    · rw [insert_run_game_games]
      show ((update_game_last_seen _ _ t).games.map fun r => r.Url) = _
      rw [update_game_last_seen, map_url_update, insert_run_game_games, hins]
      simp
    · intro hdb
      simp [get_games_count, hdb]
    · intro hdb
      have hlen : (db.games.length == 0) = false := by
        simpa using fun h => hdb (List.length_eq_zero.mp h)
      simp [get_games_count, hlen]
    · refine ⟨⟨db.next_run_game_id,
          (create_run db t ([g1, g2] : List Candidate).length).1,
          g1.Name, rstripSlash g1.Url, !(get_games_count db == 0)⟩,
        ⟨db.next_run_game_id + 1,
          (create_run db t ([g1, g2] : List Candidate).length).1,
          g2.Name, rstripSlash g1.Url, false⟩, ?_, rfl, rfl⟩
      simp [insert_run_game, update_game_last_seen, insert_game_run_games,
        insert_game_next_run_game_id, create_run, List.append_assoc]

/-- Witness for C10, part (b) exercised at a concrete store and duplicate
pair (`u/x` twice, modulo a trailing slash), part (a) following at the same
input. -/
theorem run_persist_batch_dedup_witness :
    (((run_persist
        ⟨[], [], [⟨1, "Old", "u/old", "t0", "t0"⟩], 1, 1, 2⟩
        [⟨"X", "u/x"⟩, ⟨"X copy", "u/x/"⟩] "t1").2.1).map
        (fun e => e.Url)).Nodup ∧
    (run_persist
        ⟨[], [], [⟨1, "Old", "u/old", "t0", "t0"⟩], 1, 1, 2⟩
        [⟨"X", "u/x"⟩, ⟨"X copy", "u/x/"⟩] "t1").2.2.games.map (fun r => r.Url)
      = ["u/old"] ++ [rstripSlash "u/x"] := by
  constructor
  · exact run_persist_batch_dedup.1
      ⟨[], [], [⟨1, "Old", "u/old", "t0", "t0"⟩], 1, 1, 2⟩
      [⟨"X", "u/x"⟩, ⟨"X copy", "u/x/"⟩] "t1"
  · have h := (run_persist_batch_dedup.2
      ⟨[], [], [⟨1, "Old", "u/old", "t0", "t0"⟩], 1, 1, 2⟩
      ⟨"X", "u/x"⟩ ⟨"X copy", "u/x/"⟩ "t1" (by decide) (by decide)
      (by decide)).1
    simpa using h

/-! ### C9: frame condition on re-observation -/

/-- C9.  Re-observing an existing entry touches only `last_seen`: the
`UPDATE games SET last_seen ...` issued for an already-catalogued url keeps
the table length, every row's `Name`, `first_seen`, `Url` and `id`, and
leaves rows with a different url entirely unchanged; and the games table
produced by `run_persist` on a batch containing one already-catalogued
candidate is exactly the table produced by that UPDATE. -/
theorem update_last_seen_frame (db : DB) (url t : String) :
    ((update_game_last_seen db url t).games.length = db.games.length) ∧
    (∀ i : Nat, ((update_game_last_seen db url t).games[i]?).map (fun r => r.Name)
        = (db.games[i]?).map (fun r => r.Name)) ∧
    (∀ i : Nat, ((update_game_last_seen db url t).games[i]?).map (fun r => r.first_seen)
        = (db.games[i]?).map (fun r => r.first_seen)) ∧
    (∀ i : Nat, ((update_game_last_seen db url t).games[i]?).map (fun r => r.Url)
        = (db.games[i]?).map (fun r => r.Url)) ∧
    (∀ (i : Nat) (r : GameRow), db.games[i]? = some r → r.Url ≠ url →
        (update_game_last_seen db url t).games[i]? = some r) ∧
    (∀ g : Candidate, rstripSlash g.Url = url → url ≠ "" →
      (∃ r ∈ db.games, r.Url = url) →
      (run_persist db [g] t).2.2.games
        = (update_game_last_seen db url t).games) := by
  refine ⟨by simp [update_game_last_seen], ?_, ?_, ?_, ?_, ?_⟩
  · intro i
    simp only [update_game_last_seen, List.getElem?_map]
    cases h : db.games[i]? with
    | none => rfl
    | some r => by_cases hr : r.Url = url <;> simp [hr]
  · intro i
    simp only [update_game_last_seen, List.getElem?_map]
    cases h : db.games[i]? with
    | none => rfl
    | some r => by_cases hr : r.Url = url <;> simp [hr]
  · intro i
    simp only [update_game_last_seen, List.getElem?_map]
    cases h : db.games[i]? with
    | none => rfl
    | some r => by_cases hr : r.Url = url <;> simp [hr]
  · intro i r hi hr
    simp only [update_game_last_seen, List.getElem?_map, hi]
    simp [hr]
  · intro g hg hne hex
    have hsome : ∃ r, db.games.find? (fun x => x.Url == url) = some r := by
      rcases hex with ⟨r, hr, hru⟩
      have : (db.games.find? (fun x => x.Url == url)).isSome := by
        rw [List.find?_isSome]
        exact ⟨r, hr, by simp [hru]⟩
      exact Option.isSome_iff_exists.mp this
    rcases hsome with ⟨r, hfind⟩
    have hfind1 : (create_run db t ([g] : List Candidate).length).2.games.find?
        (fun x => x.Url == rstripSlash g.Url) = some r := by
      rw [create_run_games, hg]
      exact hfind
    have hne1 : rstripSlash g.Url ≠ "" := by rw [hg]; exact hne
    rw [run_persist_eq,
      persistLoop_cons_found _ _ _ _ _ _ _ _ hne1 hfind1, persistLoop_nil]
    rw [insert_run_game_games, hg]
    rfl

/-- Witness for C9 at a two-row store: the untouched row survives verbatim,
and the singleton-batch run coincides with the raw UPDATE. -/
theorem update_last_seen_frame_witness :
    ((update_game_last_seen
        ⟨[], [], [⟨1, "A", "u/a", "t0", "t0"⟩, ⟨2, "B", "u/b", "t0", "t0"⟩], 1, 1, 3⟩
        "u/a" "t1").games[1]? = some ⟨2, "B", "u/b", "t0", "t0"⟩) ∧
    (run_persist
        ⟨[], [], [⟨1, "A", "u/a", "t0", "t0"⟩, ⟨2, "B", "u/b", "t0", "t0"⟩], 1, 1, 3⟩
        [⟨"A renamed", "u/a/"⟩] "t1").2.2.games
      = (update_game_last_seen
          ⟨[], [], [⟨1, "A", "u/a", "t0", "t0"⟩, ⟨2, "B", "u/b", "t0", "t0"⟩], 1, 1, 3⟩
          "u/a" "t1").games := by
  have h := update_last_seen_frame
    ⟨[], [], [⟨1, "A", "u/a", "t0", "t0"⟩, ⟨2, "B", "u/b", "t0", "t0"⟩], 1, 1, 3⟩
    "u/a" "t1"
  refine ⟨h.2.2.2.2.1 1 ⟨2, "B", "u/b", "t0", "t0"⟩ (by decide) (by decide), ?_⟩
  exact h.2.2.2.2.2 ⟨"A renamed", "u/a/"⟩ (by decide) (by decide)
    ⟨⟨1, "A", "u/a", "t0", "t0"⟩, by simp, rfl⟩

/-! ### C3: commit points and run atomicity

`run_persist` talks to SQLite through a connection with an implicit
transaction: every INSERT/UPDATE mutates the connection's current state, and
`conn.commit()` publishes it.  The source commits twice per run: once inside
`create_run` (right after inserting the run row) and once at the end of
`run_persist`.  The event model below replays exactly the mutations of
`run_persist` with those two commit markers, so a crash after `k` events
leaves the state published by the last executed commit. -/

/-- A store-level event: a mutation of the connection's current state, or a
`conn.commit()`. -/
inductive StoreEv where
  | write (f : DB → DB)
  | commit

/-- Connection semantics: the pair (committed state, current state). -/
def replaySt (st : DB × DB) : List StoreEv → DB × DB
  | [] => st
  | StoreEv.write f :: es => replaySt (st.1, f st.2) es
  | StoreEv.commit :: es => replaySt (st.2, st.2) es

/-- The state a reader observes after a crash: the committed component after
replaying a prefix of the run's events. -/
def replayCommitted (db : DB) (evs : List StoreEv) : DB :=
  (replaySt (db, db) evs).1

/-- The current (uncommitted) state after a list of events. -/
def applyEvs (db : DB) : List StoreEv → DB
  | [] => db
  | StoreEv.write f :: es => applyEvs (f db) es
  | StoreEv.commit :: es => applyEvs db es

/-- Events issued by `create_run`: the INSERT of the run row, then the
`conn.commit()` that `create_run` performs itself. -/
def create_run_events (run_at : String) (n : Nat) : List StoreEv :=
  [StoreEv.write (fun d => (create_run d run_at n).2), StoreEv.commit]

/-- Events issued by the candidate loop of `run_persist`: each candidate
contributes its row mutations; the loop itself never commits. -/
def persistLoopEvents (first_run : Bool) (run_id : Nat) (run_at : String) :
    DB → List Candidate → List StoreEv
  | _, [] => []
  | db, g :: gs =>
    let url := rstripSlash g.Url
    if url = "" then persistLoopEvents first_run run_id run_at db gs
    else
      match db.games.find? (fun r => r.Url == url) with
      | some _ =>
        StoreEv.write (fun d => update_game_last_seen d url run_at)
          :: StoreEv.write (fun d => insert_run_game d run_id g.Name url false)
          :: persistLoopEvents first_run run_id run_at
              (insert_run_game (update_game_last_seen db url run_at)
                run_id g.Name url false) gs
      | none =>
        StoreEv.write (fun d => insert_game d g.Name url run_at)
          :: StoreEv.write
              (fun d => insert_run_game d run_id g.Name url (!first_run))
          :: persistLoopEvents first_run run_id run_at
              (insert_run_game (insert_game db g.Name url run_at)
                run_id g.Name url (!first_run)) gs

/-- All events of one `run_persist` call: `create_run`'s insert + commit,
the loop's mutations, and the final `conn.commit()`. -/
def run_persist_events (db : DB) (results : List Candidate) (run_at : String) :
    List StoreEv :=
  create_run_events run_at results.length
    ++ persistLoopEvents (get_games_count db == 0)
        (create_run db run_at results.length).1 run_at
        (create_run db run_at results.length).2 results
    ++ [StoreEv.commit]

theorem replaySt_append (es1 es2 : List StoreEv) :
    ∀ st, replaySt st (es1 ++ es2) = replaySt (replaySt st es1) es2 := by
  induction es1 with
  | nil => intro st; rfl
  | cons e es ih =>
    intro st
    cases e with
    | write f => simp only [List.cons_append, replaySt]; exact ih _
    | commit => simp only [List.cons_append, replaySt]; exact ih _

theorem replaySt_fst_of_no_commit (es : List StoreEv) :
    ∀ st, StoreEv.commit ∉ es → (replaySt st es).1 = st.1 := by
  induction es with
  | nil => intro st _; rfl
  | cons e es ih =>
    intro st h
    cases e with
    | write f =>
      simp only [replaySt]
      exact ih _ (fun hc => h (List.mem_cons_of_mem _ hc))
    | commit => exact absurd (List.mem_cons_self _ _) h

theorem replaySt_snd (es : List StoreEv) :
    ∀ st, (replaySt st es).2 = applyEvs st.2 es := by
  induction es with
  | nil => intro st; rfl
  | cons e es ih =>
    intro st
    cases e with
    | write f => simp only [replaySt, applyEvs]; exact ih _
    | commit => simp only [replaySt, applyEvs]; exact ih _

theorem persistLoopEvents_no_commit (fr : Bool) (rid : Nat) (t : String) :
    ∀ (gs : List Candidate) (db : DB),
      StoreEv.commit ∉ persistLoopEvents fr rid t db gs := by
  intro gs
  induction gs with
  | nil => intro db h; cases h
  | cons g gs ih =>
    intro db h
    simp only [persistLoopEvents] at h
    by_cases hu : rstripSlash g.Url = ""
    · rw [if_pos hu] at h; exact ih db h
    · rw [if_neg hu] at h
      cases hfind : db.games.find? (fun r => r.Url == rstripSlash g.Url) with
      | some r =>
        rw [hfind] at h
        rcases List.mem_cons.mp h with h' | h'
        · cases h'
        · rcases List.mem_cons.mp h' with h'' | h''
          · cases h''
          · exact ih _ h''
      | none =>
        rw [hfind] at h
        rcases List.mem_cons.mp h with h' | h'
        · cases h'
        · rcases List.mem_cons.mp h' with h'' | h''
          · cases h''
          · exact ih _ h''

/-- Replaying the loop's events reproduces the store of `persistLoop`. -/
theorem persistLoopEvents_apply (fr : Bool) (rid : Nat) (t : String) :
    ∀ (gs : List Candidate) (db : DB) (acc : List Entry),
      applyEvs db (persistLoopEvents fr rid t db gs)
        = (persistLoop fr rid t db acc gs).1 := by
  intro gs
  induction gs with
  | nil => intro db acc; rfl
  | cons g gs ih =>
    intro db acc
    simp only [persistLoopEvents, persistLoop]
    by_cases hu : rstripSlash g.Url = ""
    · rw [if_pos hu, if_pos hu]; exact ih db acc
    · rw [if_neg hu, if_neg hu]
      cases hfind : db.games.find? (fun r => r.Url == rstripSlash g.Url) with
      | some r => simp only [applyEvs]; exact ih _ _
      | none => simp only [applyEvs]; exact ih _ _

/-- C3, corrected.  The only committed states reachable by failing a
`run_persist` call after `k` of its store events are: the pre-run store, the
store holding just the new (association-free) run row — published by the
commit inside `create_run` — and the completed run.  In particular the entry
upserts and the association inserts commit as one unit at the end, but the
run row itself is committed up front, so a mid-run failure can leave a run
row with no associations. -/
theorem run_persist_committed_states (db : DB) (results : List Candidate)
    (t : String) (k : Nat) :
    replayCommitted db ((run_persist_events db results t).take k) = db ∨
    replayCommitted db ((run_persist_events db results t).take k)
      = (create_run db t results.length).2 ∨
    replayCommitted db ((run_persist_events db results t).take k)
      = (run_persist db results t).2.2 := by
  match k with
  | 0 => exact Or.inl rfl
  | 1 => exact Or.inl rfl
  | Nat.succ (Nat.succ k') =>
    right
    have hshape : (run_persist_events db results t).take (k' + 2)
        = StoreEv.write (fun d => (create_run d t results.length).2)
          :: StoreEv.commit
          :: ((persistLoopEvents (get_games_count db == 0)
                (create_run db t results.length).1 t
                (create_run db t results.length).2 results
              ++ [StoreEv.commit]).take k') := by
      simp [run_persist_events, create_run_events, List.take_succ_cons]
    rw [hshape]
    have hcr : replayCommitted db
        (StoreEv.write (fun d => (create_run d t results.length).2)
          :: StoreEv.commit :: ((persistLoopEvents (get_games_count db == 0)
              (create_run db t results.length).1 t
              (create_run db t results.length).2 results
            ++ [StoreEv.commit]).take k'))
        = (replaySt ((create_run db t results.length).2,
            (create_run db t results.length).2)
            ((persistLoopEvents (get_games_count db == 0)
                (create_run db t results.length).1 t
                (create_run db t results.length).2 results
              ++ [StoreEv.commit]).take k')).1 := rfl
    rw [hcr]
    rcases le_or_lt k' (persistLoopEvents (get_games_count db == 0)
        (create_run db t results.length).1 t
        (create_run db t results.length).2 results).length with hle | hgt
    · left
      rw [List.take_append_of_le_length hle]
      apply replaySt_fst_of_no_commit
      intro hc
      exact persistLoopEvents_no_commit _ _ _ _ _ (List.take_subset _ _ hc)
    · right
      rw [List.take_append_eq_append_take]
      rw [List.take_of_length_le (Nat.le_of_lt hgt)]
      have h1 : [StoreEv.commit].take (k' -
          (persistLoopEvents (get_games_count db == 0)
            (create_run db t results.length).1 t
            (create_run db t results.length).2 results).length)
          = [StoreEv.commit] := by
        have : 1 ≤ k' - (persistLoopEvents (get_games_count db == 0)
            (create_run db t results.length).1 t
            (create_run db t results.length).2 results).length := by
          omega
        cases hk : k' - (persistLoopEvents (get_games_count db == 0)
            (create_run db t results.length).1 t
            (create_run db t results.length).2 results).length with
        | zero => omega
        | succ m => simp [List.take_succ_cons]
      rw [h1, replaySt_append]
      have hfst : ∀ st : DB × DB, (replaySt st [StoreEv.commit]).1 = st.2 := by
        intro st; rfl
      rw [hfst, replaySt_snd]
      rw [persistLoopEvents_apply (get_games_count db == 0)
        (create_run db t results.length).1 t results
        (create_run db t results.length).2 []]
      rfl

/-- C3 counterexample: failing the run right after `create_run`'s own commit
(the first two events) publishes a store whose runs table holds the new run
row while its `run_games` table is empty — even though the completed run
writes an association for that run.  The claimed all-or-nothing behavior of
one synchronize pass therefore fails on the code. -/
theorem run_persist_atomicity_counterexample :
    (replayCommitted emptyDB
        ((run_persist_events emptyDB [⟨"A", "u/a"⟩] "t1").take 2)).runs
      = [⟨1, "t1", 1⟩] ∧
    (replayCommitted emptyDB
        ((run_persist_events emptyDB [⟨"A", "u/a"⟩] "t1").take 2)).run_games
      = [] ∧
    (run_persist emptyDB [⟨"A", "u/a"⟩] "t1").2.2.run_games
      = [⟨1, 1, "A", "u/a", false⟩] := by
  refine ⟨rfl, rfl, by decide⟩

/-! ### C4 and C6: the historical "new discoveries" feed -/

/-- `load_json_games`, over the observable states of the feed file:
`none` — the file does not exist (`os.path.exists` is false);
`some none` — the file exists but reading/parsing it raises
(`json.load` fails: corrupt or undecodable content), which the
`try/except` turns into `[]`;
`some (some l)` — the file parses to the entry list `l`. -/
def load_json_games : Option (Option (List Entry)) → List Entry
  | none => []
  | some none => []
  | some (some l) => l

/-- `save_new_games_file`: loads the existing feed, keeps the entries of
`new_entries` whose url is not yet in it, and — unless nothing remains —
rewrites the file as `truly_new ++ existing`.  The result is `none` when the
file is left untouched and `some l` when it is rewritten with `l`. -/
def save_new_games_file (new_entries : List Entry)
    (file : Option (Option (List Entry))) : Option (List Entry) :=
  if new_entries.isEmpty then none
  else
    let existing_new := load_json_games file
    let existing_urls := existing_new.map (fun g => g.Url)
    let truly_new :=
      new_entries.filter (fun g => !(existing_urls.contains g.Url))
    if truly_new.isEmpty then none
    else some (truly_new ++ existing_new)

/-- C4.  Historical-feed merge policy, for every non-empty `new_entries` and
every loaded feed: `truly_new` is the subsequence of `new_entries` whose urls
are absent from the feed; when it is empty the file is untouched, otherwise
the file is rewritten as `truly_new` prepended to the prior feed, whose
entries survive unchanged, in order, as the exact tail of the output. -/
theorem save_new_games_merge (ne feed : List Entry) (h : ne ≠ []) :
    (ne.filter (fun g => !((feed.map (fun e => e.Url)).contains g.Url))).Sublist
        ne ∧
    (∀ g ∈ ne.filter (fun g => !((feed.map (fun e => e.Url)).contains g.Url)),
        g.Url ∉ feed.map (fun e => e.Url)) ∧
    (∀ g ∈ ne, g.Url ∉ feed.map (fun e => e.Url) →
        g ∈ ne.filter (fun g => !((feed.map (fun e => e.Url)).contains g.Url))) ∧
    (ne.filter (fun g => !((feed.map (fun e => e.Url)).contains g.Url)) = [] →
        save_new_games_file ne (some (some feed)) = none) ∧
    (ne.filter (fun g => !((feed.map (fun e => e.Url)).contains g.Url)) ≠ [] →
        save_new_games_file ne (some (some feed))
          = some ((ne.filter
              (fun g => !((feed.map (fun e => e.Url)).contains g.Url))) ++ feed)) ∧
    (∀ l, save_new_games_file ne (some (some feed)) = some l →
        ∃ pre, l = pre ++ feed ∧ ∀ g ∈ pre, g.Url ∉ feed.map (fun e => e.Url)) := by
  have hne : ne.isEmpty = false := List.isEmpty_eq_false.mpr h
  refine ⟨List.filter_sublist ne, ?_, ?_, ?_, ?_, ?_⟩
  · intro g hg
    have := (List.mem_filter.mp hg).2
    simpa using this
  · intro g hg hnot
    apply List.mem_filter.mpr
    exact ⟨hg, by simpa using hnot⟩
  · intro htn
    simp only [save_new_games_file, hne, Bool.false_eq_true, if_false,
      load_json_games, htn]
    rfl
  · intro htn
    simp only [save_new_games_file, hne, Bool.false_eq_true, if_false,
      load_json_games]
    rw [if_neg (by simpa [List.isEmpty_iff] using htn)]
  · intro l hl
    simp only [save_new_games_file, hne, Bool.false_eq_true, if_false,
      load_json_games] at hl
    by_cases htn : (ne.filter
        (fun g => !((feed.map (fun e => e.Url)).contains g.Url))).isEmpty
    · rw [if_pos htn] at hl; cases hl
    · rw [if_neg htn] at hl
      refine ⟨ne.filter (fun g => !((feed.map (fun e => e.Url)).contains g.Url)),
        (Option.some_injective _ hl).symm, ?_⟩
      intro g hg
      have := (List.mem_filter.mp hg).2
      simpa using this

/-- Witness for C4: two new entries against a one-entry feed; the entry whose
url is already present is dropped, the other is prepended. -/
theorem save_new_games_merge_witness :
    save_new_games_file [⟨"G", "u/g"⟩, ⟨"B", "u/b"⟩]
        (some (some [⟨"B", "u/b"⟩]))
      = some [⟨"G", "u/g"⟩, ⟨"B", "u/b"⟩] := by
  have h := (save_new_games_merge [⟨"G", "u/g"⟩, ⟨"B", "u/b"⟩] [⟨"B", "u/b"⟩]
    (by decide)).2.2.2.2.1 (by decide)
  rw [h]
  decide

/-- C6.  Feed read-failure recovery: an absent feed file and a present but
unparsable one both load as the empty feed (the `try/except` recovers
locally; in this total model no exception escapes `load_json_games`), and the
merge then proceeds normally: any non-empty `new_entries` is written out
verbatim. -/
theorem load_json_games_recovery :
    load_json_games none = [] ∧
    load_json_games (some none) = [] ∧
    (∀ ne : List Entry, ne ≠ [] →
      save_new_games_file ne none = some ne ∧
      save_new_games_file ne (some none) = some ne) := by
  refine ⟨rfl, rfl, ?_⟩
  intro ne hne
  have hne' : ne.isEmpty = false := List.isEmpty_eq_false.mpr hne
  have hfilter : ne.filter
      (fun g => !((([] : List Entry).map (fun e => e.Url)).contains g.Url)) = ne := by
    apply List.filter_eq_self.mpr
    intro a _
    simp
  constructor
  · simp only [save_new_games_file, hne', Bool.false_eq_true, if_false,
      load_json_games, hfilter]
    simp
  · simp only [save_new_games_file, hne', Bool.false_eq_true, if_false,
      load_json_games, hfilter]
    simp

/-- Witness for C6: a singleton `new_entries` written against an absent and
against a corrupt feed file. -/
theorem load_json_games_recovery_witness :
    save_new_games_file [⟨"A", "u/a"⟩] none = some [⟨"A", "u/a"⟩] ∧
    save_new_games_file [⟨"A", "u/a"⟩] (some none) = some [⟨"A", "u/a"⟩] :=
  load_json_games_recovery.2.2 [⟨"A", "u/a"⟩] (by decide)

/-! ### The name normalizer `clean_name`

`clean_name` performs, in order: `str.strip()`, then
`re.sub(r"\s*free\s+download.*$", "", text, flags=re.I).strip()`, then
`re.sub(r"\s*\(.*?\)\s*$", "", text).strip()`, then
`re.sub(r"\s+", " ", text).strip(' -–+,:')`, then `html.unescape`.

The two anchored substitutions are inlined with their Python semantics on
newline-free text (the domain of the spec's "printable text" properties; with
no newline, `$` is end-of-string and the whole match always reaches it, so a
substitution cuts the string at the leftmost match position).  Since the
leading `\s*` of either pattern must be followed by a non-whitespace literal,
a position matches exactly when skipping its whitespace run lands on that
literal. -/

/-- Python's whitespace (`str.strip`, regex `\s` on `str`). -/
def pyWs (c : Char) : Bool :=
  c == ' ' || c == '\t' || c == '\n' || c == '\r' || c == '\x0b' || c == '\x0c' ||
  c == '\x1c' || c == '\x1d' || c == '\x1e' || c == '\x1f' ||
  c == '\x85' || c == '\xa0' || c == '\u1680' ||
  ('\u2000' ≤ c && c ≤ '\u200A') ||
  c == '\u2028' || c == '\u2029' || c == '\u202F' || c == '\u205F' ||
  c == '\u3000'

/-- Python `str.strip()`. -/
def pyStrip (l : List Char) : List Char :=
  (l.dropWhile pyWs).rdropWhile pyWs

/-- Case-insensitive literal match at the head (regex `re.I` on ASCII). -/
def ciStarts : List Char → List Char → Bool
  | [], _ => true
  | _ :: _, [] => false
  | a :: as, b :: bs => (a.toLower == b.toLower) && ciStarts as bs

def freeChars : List Char := ['f', 'r', 'e', 'e']

def downloadChars : List Char := ['d', 'o', 'w', 'n', 'l', 'o', 'a', 'd']

/-- After the literal `free`: `\s+download` (at least one whitespace, then
the literal). -/
def fdAfter (l : List Char) : Bool :=
  match l with
  | [] => false
  | c :: _ => pyWs c && ciStarts downloadChars (l.dropWhile pyWs)

/-- Does `\s*free\s+download.*$` match starting at this position? -/
def fdMatchAt (l : List Char) : Bool :=
  ciStarts freeChars (l.dropWhile pyWs) && fdAfter ((l.dropWhile pyWs).drop 4)

/-- The `free download` substitution: cut at the leftmost match position. -/
def subFD : List Char → List Char
  | [] => []
  | c :: rest => if fdMatchAt (c :: rest) then [] else c :: subFD rest

/-- Does `\s*\(.*?\)\s*$` match starting at this position?  After the `(`
there must be some `)` followed only by whitespace, i.e. the last
non-whitespace character of the remainder is `)`. -/
def parenMatchAt (l : List Char) : Bool :=
  match l.dropWhile pyWs with
  | '(' :: r => (r.rdropWhile pyWs).getLast? == some ')'
  | _ => false

/-- The trailing-parenthetical substitution: cut at the leftmost match. -/
def subParen : List Char → List Char
  | [] => []
  | c :: rest => if parenMatchAt (c :: rest) then [] else c :: subParen rest

/-- `re.sub(r"\s+", " ", text)`: every whitespace run becomes one space. -/
def collapseWsGo : Bool → List Char → List Char
  | _, [] => []
  | prevWs, c :: rest =>
    if pyWs c then
      if prevWs then collapseWsGo true rest
      else ' ' :: collapseWsGo true rest
    else c :: collapseWsGo false rest

def collapseWs (l : List Char) : List Char := collapseWsGo false l

/-- The characters of `.strip(' -–+,:')`. -/
def punctChar (c : Char) : Bool :=
  c == ' ' || c == '-' || c == '–' || c == '+' || c == ',' || c == ':'

def stripPunct (l : List Char) : List Char :=
  (l.dropWhile punctChar).rdropWhile punctChar

def digitsToNat (ds : List Char) : Nat :=
  ds.foldl (fun n c => n * 10 + (c.toNat - 48)) 0

/-- `html.unescape`, modelled on the fragment exercised here: a decimal
character reference `&#ddd;` (Python also accepts it without the semicolon)
decodes to its code point; any other text — in particular every string
without `&` — passes through unchanged, exactly as `html.unescape` does on
`&`-free input.  (Hexadecimal and the ~2000 named references are outside
this model; no property below touches them.)  The fuel argument only
bounds the recursion and starts at the list length, which the scan never
exceeds. -/
def unescapeGo : Nat → List Char → List Char
  | 0, l => l
  | _ + 1, [] => []
  | fuel + 1, c :: rest =>
    if c = '&' then
      match rest with
      | '#' :: r2 =>
        let ds := r2.takeWhile Char.isDigit
        if ds.isEmpty then '&' :: unescapeGo fuel rest
        else
          let r3 := r2.drop ds.length
          let r4 := match r3 with
            | ';' :: t => t
            | _ => r3
          Char.ofNat (digitsToNat ds) :: unescapeGo fuel r4
      | _ => '&' :: unescapeGo fuel rest
    else c :: unescapeGo fuel rest

def unescape (l : List Char) : List Char := unescapeGo l.length l

/-- `clean_name` from the source: empty input short-circuits, otherwise the
four normalization stages followed by entity decoding. -/
def clean_name (raw_text : String) : String :=
  if raw_text = "" then ""
  else
    let t1 := pyStrip raw_text.data
    let t2 := pyStrip (subFD t1)
    let t3 := pyStrip (subParen t2)
    let t4 := stripPunct (collapseWs t3)
    ⟨unescape t4⟩

/-- C8 counterexample: `clean_name` is not idempotent on printable text.
On `"x (y):"` the first pass only strips the trailing colon (the
parenthetical is not yet anchored at the end), producing `"x (y)"`; the
second pass then removes the now-trailing parenthetical. -/
theorem clean_name_not_idempotent :
    clean_name "x (y):" = "x (y)" ∧
    clean_name (clean_name "x (y):") = "x" ∧
    clean_name (clean_name "x (y):") ≠ clean_name "x (y):" := by
  refine ⟨by decide, by decide, by decide⟩

/-! ### C8: idempotence analysis of `clean_name`

The second pass of `clean_name` is the identity as long as no stage of the
first pass re-exposes a pattern: decoding an entity can (hence the `&`
exclusion below) and stripping trailing punctuation can re-anchor a
parenthetical at the end (the counterexample above; hence the `(`
exclusion).  The `free…download` cut needs no exclusion: the lemmas below
show no later stage can create a match the cut left behind. -/

/-- No position of `l` starts a `free\s+download` match. -/
def noFM (l : List Char) : Prop :=
  ∀ j : Nat, fdMatchAt (l.drop j) = false

theorem fdMatchAt_nil : fdMatchAt [] = false := rfl

theorem ciStarts_take (p : List Char) :
    ∀ (l : List Char) (n : Nat), ciStarts p (l.take n) = true →
      ciStarts p l = true := by
  induction p with
  | nil => intro l n _; rfl
  | cons a as ih =>
    intro l n h
    cases l with
    | nil => simpa [ciStarts] using h
    | cons b bs =>
      cases n with
      | zero => simpa [ciStarts] using h
      | succ m =>
        simp only [List.take_succ_cons, ciStarts, Bool.and_eq_true] at h ⊢
        exact ⟨h.1, ih bs m h.2⟩

theorem dropWhile_take (p : Char → Bool) :
    ∀ (l : List Char) (n : Nat),
      (l.take n).dropWhile p
        = (l.dropWhile p).take (n - (l.takeWhile p).length) := by
  intro l
  induction l with
  | nil => intro n; simp
  | cons c t ih =>
    intro n
    by_cases hc : p c
    · cases n with
      | zero => simp [List.takeWhile_cons, hc]
      | succ m =>
        simp only [List.take_succ_cons, List.dropWhile_cons, hc, if_true,
          List.takeWhile_cons, List.length_cons]
        rw [ih m]
        congr 1
        omega
    · cases n with
      | zero => simp [List.dropWhile_cons, hc, List.takeWhile_cons]
      | succ m =>
        simp [List.take_succ_cons, List.dropWhile_cons, hc, List.takeWhile_cons]

theorem fdAfter_take (u : List Char) (m : Nat) (h : fdAfter (u.take m) = true) :
    fdAfter u = true := by
  cases u with
  | nil => simpa [fdAfter] using h
  | cons c cs =>
    cases m with
    | zero => simpa [fdAfter] using h
    | succ k =>
      simp only [List.take_succ_cons, fdAfter, Bool.and_eq_true] at h ⊢
      refine ⟨h.1, ?_⟩
      have h2 := h.2
      have hrw : (c :: List.take k cs) = (c :: cs).take (k + 1) := rfl
      rw [hrw, dropWhile_take] at h2
      exact ciStarts_take _ _ _ h2

theorem fdMatchAt_take (l : List Char) (n : Nat)
    (h : fdMatchAt (l.take n) = true) : fdMatchAt l = true := by
  simp only [fdMatchAt, Bool.and_eq_true] at h ⊢
  rw [dropWhile_take] at h
  refine ⟨ciStarts_take _ _ _ h.1, ?_⟩
  have h2 := h.2
  rw [List.drop_take] at h2
  exact fdAfter_take _ _ h2

theorem noFM_nil : noFM [] := by
  intro j
  simp [fdMatchAt_nil]

theorem noFM_drop (l : List Char) (k : Nat) (h : noFM l) : noFM (l.drop k) := by
  intro j
  rw [List.drop_drop]
  exact h _

theorem noFM_take (l : List Char) (n : Nat) (h : noFM l) : noFM (l.take n) := by
  intro j
  rw [List.drop_take]
  apply Bool.eq_false_iff.mpr
  intro htrue
  have := fdMatchAt_take _ _ htrue
  rw [h j] at this
  cases this

theorem noFM_of_take_eq {l m : List Char} (hp : m = l.take m.length)
    (h : noFM l) : noFM m := by
  rw [hp]; exact noFM_take _ _ h

theorem noFM_of_drop_eq {l m : List Char} (hs : m = l.drop (l.length - m.length))
    (h : noFM l) : noFM m := by
  rw [hs]; exact noFM_drop _ _ h

theorem noFM_pyStrip (l : List Char) (h : noFM l) : noFM (pyStrip l) := by
  have h1 : noFM (l.dropWhile pyWs) :=
    noFM_of_drop_eq (List.suffix_iff_eq_drop.mp (List.dropWhile_suffix pyWs)) h
  exact noFM_of_take_eq
    (List.prefix_iff_eq_take.mp (List.rdropWhile_prefix pyWs (l.dropWhile pyWs))) h1

theorem noFM_stripPunct (l : List Char) (h : noFM l) : noFM (stripPunct l) := by
  have h1 : noFM (l.dropWhile punctChar) :=
    noFM_of_drop_eq (List.suffix_iff_eq_drop.mp (List.dropWhile_suffix punctChar)) h
  exact noFM_of_take_eq
    (List.prefix_iff_eq_take.mp
      (List.rdropWhile_prefix punctChar (l.dropWhile punctChar))) h1

theorem subFD_pre : ∀ l : List Char, ∃ t, subFD l ++ t = l := by
  intro l
  induction l with
  | nil => exact ⟨[], rfl⟩
  | cons c t ih =>
    simp only [subFD]
    by_cases h : fdMatchAt (c :: t) = true
    · rw [if_pos h]; exact ⟨c :: t, rfl⟩
    · rw [if_neg h]
      rcases ih with ⟨u, hu⟩
      exact ⟨u, by rw [List.cons_append, hu]⟩

/-- The output of the `free download` cut has no match anywhere: the cut is
at the leftmost match position. -/
theorem noFM_subFD : ∀ l : List Char, noFM (subFD l) := by
  intro l
  induction l with
  | nil => exact noFM_nil
  | cons c t ih =>
    simp only [subFD]
    by_cases h : fdMatchAt (c :: t) = true
    · rw [if_pos h]; exact noFM_nil
    · rw [if_neg h]
      intro j
      cases j with
      | succ j' => simpa using ih j'
      | zero =>
        simp only [List.drop_zero]
        apply Bool.eq_false_iff.mpr
        intro htrue
        rcases subFD_pre t with ⟨u, hu⟩
        have hpre : c :: subFD t = (c :: t).take (c :: subFD t).length := by
          apply List.prefix_iff_eq_take.mp
          exact ⟨u, by rw [List.cons_append, hu]⟩
        rw [hpre] at htrue
        exact h (fdMatchAt_take _ _ htrue)

theorem subFD_eq_self (l : List Char) (h : noFM l) : subFD l = l := by
  induction l with
  | nil => rfl
  | cons c t ih =>
    simp only [subFD]
    have h0 : fdMatchAt (c :: t) = false := by simpa using h 0
    rw [h0]
    simp only [Bool.false_eq_true, if_false]
    congr 1
    apply ih
    intro j
    simpa using h (j + 1)

theorem collapse_cons_ws_false (c : Char) (t : List Char) (h : pyWs c = true) :
    collapseWsGo false (c :: t) = ' ' :: collapseWsGo true t := by
  simp [collapseWsGo, h]

theorem collapse_cons_ws_true (c : Char) (t : List Char) (h : pyWs c = true) :
    collapseWsGo true (c :: t) = collapseWsGo true t := by
  simp [collapseWsGo, h]

theorem collapse_cons_nonws (prev : Bool) (c : Char) (t : List Char)
    (h : pyWs c = false) :
    collapseWsGo prev (c :: t) = c :: collapseWsGo false t := by
  simp [collapseWsGo, h]

/-- Collapsing commutes with skipping leading whitespace (true flag). -/
theorem collapse_true_dropWhile :
    ∀ l : List Char,
      (collapseWsGo true l).dropWhile pyWs
        = collapseWsGo false (l.dropWhile pyWs) := by
  intro l
  induction l with
  | nil => rfl
  | cons c t ih =>
    by_cases hc : pyWs c
    · rw [collapse_cons_ws_true c t hc, List.dropWhile_cons, hc]
      simpa using ih
    · have hcf : pyWs c = false := by simpa using hc
      rw [collapse_cons_nonws true c t hcf, List.dropWhile_cons, hcf,
        List.dropWhile_cons, hcf]
      simp only [Bool.false_eq_true, if_false]
      rw [collapse_cons_nonws false c t hcf]

/-- Collapsing commutes with skipping leading whitespace (false flag). -/
theorem collapse_false_dropWhile :
    ∀ l : List Char,
      (collapseWsGo false l).dropWhile pyWs
        = collapseWsGo false (l.dropWhile pyWs) := by
  intro l
  cases l with
  | nil => rfl
  | cons c t =>
    by_cases hc : pyWs c
    · rw [collapse_cons_ws_false c t hc, List.dropWhile_cons, List.dropWhile_cons,
        hc]
      have hsp : pyWs ' ' = true := by decide
      simp only [hsp, if_true]
      exact collapse_true_dropWhile t
    · have hcf : pyWs c = false := by simpa using hc
      rw [collapse_cons_nonws false c t hcf, List.dropWhile_cons, hcf,
        List.dropWhile_cons, hcf]
      simp only [Bool.false_eq_true, if_false]
      rw [collapse_cons_nonws false c t hcf]

/-- Pattern sides used in the regexes: non-whitespace, already lowercase. -/
def patOK (q : List Char) : Prop :=
  ∀ a ∈ q, pyWs a = false ∧ a.toLower = a

theorem patOK_free : patOK freeChars := by unfold patOK; decide

theorem patOK_download : patOK downloadChars := by unfold patOK; decide

/-- A non-whitespace literal that matches at the head of a collapsed string
matches at the head of the original. -/
theorem ciStarts_collapse (q : List Char) (hq : patOK q) :
    ∀ t : List Char, ciStarts q (collapseWsGo false t) = true →
      ciStarts q t = true := by
  induction q with
  | nil => intro t _; rfl
  | cons a as ih =>
    intro t h
    cases t with
    | nil => simpa [ciStarts] using h
    | cons d t' =>
      by_cases hd : pyWs d
      · rw [collapse_cons_ws_false d t' hd] at h
        simp only [ciStarts, Bool.and_eq_true, beq_iff_eq] at h
        have ha := hq a (List.mem_cons_self a as)
        rw [ha.2] at h
        have hsp : Char.toLower ' ' = ' ' := by decide
        rw [hsp] at h
        have haeq : a = ' ' := h.1
        rw [haeq] at ha
        exact absurd ha.1 (by decide)
      · rw [collapse_cons_nonws false d t' (by simpa using hd)] at h
        simp only [ciStarts, Bool.and_eq_true] at h ⊢
        exact ⟨h.1, ih (fun x hx => hq x (List.mem_cons_of_mem a hx)) t' h.2⟩

/-- The whole pattern `q` + `\s+download` transfers from a collapsed string
to the original. -/
theorem fd_collapse (q : List Char) (hq : patOK q) :
    ∀ t : List Char, ciStarts q (collapseWsGo false t) = true →
      fdAfter ((collapseWsGo false t).drop q.length) = true →
      ciStarts q t = true ∧ fdAfter (t.drop q.length) = true := by
  induction q with
  | nil =>
    intro t _ hfa
    refine ⟨rfl, ?_⟩
    simp only [List.length_nil, List.drop_zero] at hfa ⊢
    cases t with
    | nil => exact absurd hfa (by decide)
    | cons d t' =>
      by_cases hd : pyWs d
      · rw [collapse_cons_ws_false d t' hd] at hfa
        simp only [fdAfter, Bool.and_eq_true] at hfa ⊢
        refine ⟨hd, ?_⟩
        have h2 := hfa.2
        rw [List.dropWhile_cons] at h2
        have hsp : pyWs ' ' = true := by decide
        rw [hsp] at h2
        simp only [if_true] at h2
        rw [collapse_true_dropWhile t'] at h2
        have := ciStarts_collapse downloadChars patOK_download (t'.dropWhile pyWs) h2
        rw [List.dropWhile_cons, hd]
        simpa using this
      · rw [collapse_cons_nonws false d t' (by simpa using hd)] at hfa
        simp [fdAfter, hd] at hfa
  | cons a as ih =>
    intro t h hfa
    cases t with
    | nil => simpa [ciStarts] using h
    | cons d t' =>
      by_cases hd : pyWs d
      · rw [collapse_cons_ws_false d t' hd] at h
        simp only [ciStarts, Bool.and_eq_true, beq_iff_eq] at h
        have ha := hq a (List.mem_cons_self a as)
        rw [ha.2] at h
        have hsp : Char.toLower ' ' = ' ' := by decide
        rw [hsp] at h
        have haeq : a = ' ' := h.1
        rw [haeq] at ha
        exact absurd ha.1 (by decide)
      · rw [collapse_cons_nonws false d t' (by simpa using hd)] at h hfa
        simp only [ciStarts, Bool.and_eq_true] at h ⊢
        simp only [List.length_cons, List.drop_succ_cons] at hfa ⊢
        have has := ih (fun x hx => hq x (List.mem_cons_of_mem a hx)) t' h.2 hfa
        exact ⟨⟨h.1, has.1⟩, has.2⟩

/-- A `free\s+download` match in a collapsed string pulls back. -/
theorem fdMatchAt_collapse (t : List Char)
    (h : fdMatchAt (collapseWsGo false t) = true) : fdMatchAt t = true := by
  simp only [fdMatchAt, Bool.and_eq_true] at h ⊢
  rw [collapse_false_dropWhile] at h
  have h4 : freeChars.length = 4 := rfl
  have := fd_collapse freeChars patOK_free (t.dropWhile pyWs) h.1 (by rw [h4]; exact h.2)
  rw [h4] at this
  exact this

theorem fdMatchAt_cons_ws (c : Char) (u : List Char) (h : pyWs c = true) :
    fdMatchAt (c :: u) = fdMatchAt u := by
  simp [fdMatchAt, List.dropWhile_cons, h]

/-- Collapsing whitespace cannot create a `free download` match. -/
theorem noFM_collapseGo :
    ∀ (t : List Char) (prev : Bool), noFM t → noFM (collapseWsGo prev t) := by
  intro t
  induction t with
  | nil => intro prev _; cases prev <;> exact noFM_nil
  | cons c t' ih =>
    intro prev h
    have ht' : noFM t' := fun j => by simpa using h (j + 1)
    by_cases hc : pyWs c
    · cases prev with
      | true => rw [collapse_cons_ws_true c t' hc]; exact ih true ht'
      | false =>
        rw [collapse_cons_ws_false c t' hc]
        intro j
        cases j with
        | zero =>
          simp only [List.drop_zero]
          rw [fdMatchAt_cons_ws ' ' _ (by decide)]
          simpa using ih true ht' 0
        | succ j' => simpa using ih true ht' j'
    · rw [collapse_cons_nonws prev c t' (by simpa using hc)]
      intro j
      cases j with
      | zero =>
        simp only [List.drop_zero]
        apply Bool.eq_false_iff.mpr
        intro htrue
        rw [show (c :: collapseWsGo false t') = collapseWsGo false (c :: t') from
          (collapse_cons_nonws false c t' (by simpa using hc)).symm] at htrue
        have hmt := fdMatchAt_collapse (c :: t') htrue
        have h0 : fdMatchAt (c :: t') = false := by simpa using h 0
        rw [h0] at hmt
        cases hmt
      | succ j' => simpa using ih false ht' j'

/-! Character-set closure of the pipeline stages. -/

theorem mem_collapseGo :
    ∀ (l : List Char) (prev : Bool) (c : Char),
      c ∈ collapseWsGo prev l → c = ' ' ∨ c ∈ l := by
  intro l
  induction l with
  | nil => intro prev c h; cases h
  | cons d t ih =>
    intro prev c h
    by_cases hd : pyWs d
    · cases prev with
      | true =>
        rw [collapse_cons_ws_true d t hd] at h
        rcases ih true c h with h' | h'
        · exact Or.inl h'
        · exact Or.inr (List.mem_cons_of_mem d h')
      | false =>
        rw [collapse_cons_ws_false d t hd] at h
        rcases List.mem_cons.mp h with h' | h'
        · exact Or.inl h'
        · rcases ih true c h' with h'' | h''
          · exact Or.inl h''
          · exact Or.inr (List.mem_cons_of_mem d h'')
    · rw [collapse_cons_nonws prev d t (by simpa using hd)] at h
      rcases List.mem_cons.mp h with h' | h'
      · exact Or.inr (h' ▸ List.mem_cons_self d t)
      · rcases ih false c h' with h'' | h''
        · exact Or.inl h''
        · exact Or.inr (List.mem_cons_of_mem d h'')

theorem mem_pyStrip {c : Char} {l : List Char} (h : c ∈ pyStrip l) : c ∈ l := by
  have h1 := (List.rdropWhile_prefix pyWs (l.dropWhile pyWs)).sublist.subset h
  exact (List.dropWhile_sublist pyWs).subset h1

theorem mem_stripPunct {c : Char} {l : List Char} (h : c ∈ stripPunct l) :
    c ∈ l := by
  have h1 :=
    (List.rdropWhile_prefix punctChar (l.dropWhile punctChar)).sublist.subset h
  exact (List.dropWhile_sublist punctChar).subset h1

theorem mem_subFD {c : Char} {l : List Char} (h : c ∈ subFD l) : c ∈ l := by
  rcases subFD_pre l with ⟨t, ht⟩
  rw [← ht]
  exact List.mem_append_left _ h

theorem subParen_pre : ∀ l : List Char, ∃ t, subParen l ++ t = l := by
  intro l
  induction l with
  | nil => exact ⟨[], rfl⟩
  | cons c t ih =>
    simp only [subParen]
    by_cases h : parenMatchAt (c :: t) = true
    · rw [if_pos h]; exact ⟨c :: t, rfl⟩
    · rw [if_neg h]
      rcases ih with ⟨u, hu⟩
      exact ⟨u, by rw [List.cons_append, hu]⟩

theorem mem_subParen {c : Char} {l : List Char} (h : c ∈ subParen l) : c ∈ l := by
  rcases subParen_pre l with ⟨t, ht⟩
  rw [← ht]
  exact List.mem_append_left _ h

/-! The parenthetical substitution is inert without a `(`. -/

theorem parenMatchAt_eq_false (l : List Char) (h : '(' ∉ l) :
    parenMatchAt l = false := by
  unfold parenMatchAt
  split
  · next r heq =>
    exfalso
    apply h
    apply (List.dropWhile_sublist pyWs).subset
    rw [heq]
    exact List.mem_cons_self '(' r
  · rfl

theorem subParen_eq_self (l : List Char) (h : '(' ∉ l) : subParen l = l := by
  induction l with
  | nil => rfl
  | cons c t ih =>
    simp only [subParen, parenMatchAt_eq_false (c :: t) h, Bool.false_eq_true,
      if_false]
    congr 1
    exact ih (fun hc => h (List.mem_cons_of_mem c hc))

/-! `unescape` is the identity on `&`-free text, exactly like Python's. -/

theorem unescapeGo_eq_self :
    ∀ (fuel : Nat) (l : List Char), '&' ∉ l → unescapeGo fuel l = l := by
  intro fuel
  induction fuel with
  | zero => intro l _; rfl
  | succ f ih =>
    intro l h
    cases l with
    | nil => rfl
    | cons c rest =>
      have hc : ¬(c = '&') := fun hcc => h (hcc ▸ List.mem_cons_self c rest)
      simp only [unescapeGo, if_neg hc]
      congr 1
      exact ih rest (fun hr => h (List.mem_cons_of_mem c hr))

theorem unescape_eq_self (l : List Char) (h : '&' ∉ l) : unescape l = l :=
  unescapeGo_eq_self _ _ h

/-! Normal form of whitespace after `collapseWs`, and fixed points of the
stages. -/

/-- Whitespace is canonical: every whitespace character is a plain space and
no two spaces are adjacent. -/
def normStr (l : List Char) : Prop :=
  (∀ c ∈ l, pyWs c = true → c = ' ') ∧
  List.Chain' (fun a b => ¬(a = ' ' ∧ b = ' ')) l

theorem normStr_collapse :
    ∀ l : List Char,
      normStr (collapseWsGo false l) ∧ normStr (collapseWsGo true l) ∧
      ∀ a : Char, (collapseWsGo true l).head? = some a → pyWs a = false := by
  intro l
  induction l with
  | nil =>
    refine ⟨⟨?_, List.chain'_nil⟩, ⟨?_, List.chain'_nil⟩, ?_⟩
    · intro c hc; cases hc
    · intro c hc; cases hc
    · intro a ha; cases ha
  | cons c t ih =>
    rcases ih with ⟨ihF, ihT, ihH⟩
    by_cases hc : pyWs c
    · rw [collapse_cons_ws_false c t hc, collapse_cons_ws_true c t hc]
      refine ⟨⟨?_, ?_⟩, ihT, ihH⟩
      · intro x hx _
        rcases List.mem_cons.mp hx with h' | h'
        · exact h'
        · exact ihT.1 x h' (by assumption)
      · apply List.chain'_cons'.mpr
        refine ⟨?_, ihT.2⟩
        intro b hb
        intro hcontra
        have := ihH b hb
        rw [hcontra.2] at this
        exact absurd this (by decide)
    · have hcf : pyWs c = false := by simpa using hc
      rw [collapse_cons_nonws false c t hcf, collapse_cons_nonws true c t hcf]
      have hnorm : normStr (c :: collapseWsGo false t) := by
        refine ⟨?_, ?_⟩
        · intro x hx hws
          rcases List.mem_cons.mp hx with h' | h'
          · rw [h'] at hws; rw [hws] at hcf; cases hcf
          · exact ihF.1 x h' hws
        · apply List.chain'_cons'.mpr
          refine ⟨?_, ihF.2⟩
          intro b _ hcontra
          rw [hcontra.1] at hcf
          exact absurd hcf (by decide)
      refine ⟨hnorm, hnorm, ?_⟩
      intro a ha
      have : a = c := by simpa using ha.symm
      rw [this]
      exact hcf

theorem normStr_tail {c : Char} {t : List Char} (h : normStr (c :: t)) :
    normStr t :=
  ⟨fun x hx => h.1 x (List.mem_cons_of_mem c hx), h.2.tail⟩

theorem normStr_take (l : List Char) (n : Nat) (h : normStr l) :
    normStr (l.take n) :=
  ⟨fun x hx => h.1 x (List.take_subset n l hx), h.2.take n⟩

theorem normStr_drop (l : List Char) (n : Nat) (h : normStr l) :
    normStr (l.drop n) :=
  ⟨fun x hx => h.1 x (List.drop_subset n l hx), h.2.drop n⟩

theorem normStr_stripPunct (l : List Char) (h : normStr l) :
    normStr (stripPunct l) := by
  have h1 : normStr (l.dropWhile punctChar) := by
    rw [List.suffix_iff_eq_drop.mp (List.dropWhile_suffix punctChar)]
    exact normStr_drop _ _ h
  have hpre := List.prefix_iff_eq_take.mp
    (List.rdropWhile_prefix punctChar (l.dropWhile punctChar))
  show normStr ((l.dropWhile punctChar).rdropWhile punctChar)
  rw [hpre]
  exact normStr_take _ _ h1

/-- On canonical whitespace, collapsing is the identity. -/
theorem collapse_eq_self : ∀ l : List Char, normStr l → collapseWsGo false l = l := by
  intro l
  induction l with
  | nil => intro _; rfl
  | cons c t ih =>
    intro hn
    by_cases hc : pyWs c
    · have hceq : c = ' ' := hn.1 c (List.mem_cons_self c t) hc
      rw [collapse_cons_ws_false c t hc]
      rw [hceq]
      congr 1
      cases t with
      | nil => rfl
      | cons d t' =>
        have hrel : ¬(c = ' ' ∧ d = ' ') := (List.chain'_cons.mp hn.2).1
        have hd : pyWs d = false := by
          apply Bool.eq_false_iff.mpr
          intro hdw
          have : d = ' ' := hn.1 d (List.mem_cons_of_mem c (List.mem_cons_self d t')) hdw
          exact hrel ⟨hceq, this⟩
        rw [collapse_cons_nonws true d t' hd]
        have := ih (normStr_tail hn)
        rw [collapse_cons_nonws false d t' hd] at this
        exact this
    · have hcf : pyWs c = false := by simpa using hc
      rw [collapse_cons_nonws false c t hcf]
      congr 1
      exact ih (normStr_tail hn)

/-! Fixed points of the end-trimming stages. -/

theorem head?_dropWhile (p : Char → Bool) :
    ∀ (l : List Char) (a : Char), (l.dropWhile p).head? = some a → p a = false := by
  intro l
  induction l with
  | nil => intro a h; cases h
  | cons c t ih =>
    intro a h
    rw [List.dropWhile_cons] at h
    by_cases hc : p c
    · rw [if_pos hc] at h; exact ih a h
    · rw [if_neg hc] at h
      have : a = c := by simpa using h.symm
      rw [this]
      simpa using hc

theorem head?_rdropWhile (p : Char → Bool) (l : List Char) (a : Char)
    (h : (l.rdropWhile p).head? = some a) : l.head? = some a := by
  rcases List.rdropWhile_prefix p l with ⟨t, ht⟩
  cases hrd : l.rdropWhile p with
  | nil => rw [hrd] at h; cases h
  | cons x r =>
    rw [hrd] at h ht
    have hax : a = x := by simpa using h.symm
    rw [← ht, hax]
    rfl

theorem dropWhile_eq_self_of_head (p : Char → Bool) (l : List Char)
    (h : ∀ a : Char, l.head? = some a → p a = false) : l.dropWhile p = l := by
  cases l with
  | nil => rfl
  | cons c t =>
    rw [List.dropWhile_cons, h c rfl]
    simp

/-- Both-ends trimming is the identity when neither end matches. -/
theorem trim_eq_self (p : Char → Bool) (l : List Char)
    (hh : ∀ a : Char, l.head? = some a → p a = false)
    (hl : ∀ hne : l ≠ [], p (l.getLast hne) = false) :
    (l.dropWhile p).rdropWhile p = l := by
  rw [dropWhile_eq_self_of_head p l hh]
  apply List.rdropWhile_eq_self_iff.mpr
  intro hne
  rw [hl hne]
  simp

/-- The defining equation of `clean_name` away from the empty string. -/
theorem clean_name_ne (s : String) (h : s ≠ "") :
    clean_name s
      = ⟨unescape (stripPunct (collapseWs (pyStrip (subParen
          (pyStrip (subFD (pyStrip s.data)))))))⟩ := by
  unfold clean_name
  rw [if_neg h]

theorem mem_of_head? {α : Type} {l : List α} {a : α} (h : l.head? = some a) :
    a ∈ l := by
  cases l with
  | nil => cases h
  | cons c t =>
    have : a = c := by simpa using h.symm
    exact this ▸ List.mem_cons_self c t

theorem pyStrip_eq_self (l : List Char)
    (hh : ∀ a : Char, l.head? = some a → pyWs a = false)
    (hl : ∀ hne : l ≠ [], pyWs (l.getLast hne) = false) : pyStrip l = l :=
  trim_eq_self pyWs l hh hl

theorem stripPunct_eq_self (l : List Char)
    (hh : ∀ a : Char, l.head? = some a → punctChar a = false)
    (hl : ∀ hne : l ≠ [], punctChar (l.getLast hne) = false) :
    stripPunct l = l :=
  trim_eq_self punctChar l hh hl

set_option maxHeartbeats 2000000 in
/-- C8, corrected.  `clean_name` is idempotent on every string containing
neither `&` (no entity decoding can re-expose a pattern) nor `(` (no
trailing parenthetical can become anchored), which in particular covers the
printable strings without those two characters; the counterexample above
shows the unrestricted claim fails. -/
theorem clean_name_idem (s : String) (hamp : '&' ∉ s.data)
    (hpar : '(' ∉ s.data) :
    clean_name (clean_name s) = clean_name s := by
  by_cases hs : s = ""
  · rw [hs]; decide
  · set t4 : List Char :=
      stripPunct (collapseWs (pyStrip (subParen (pyStrip (subFD (pyStrip s.data))))))
      with ht4
    have hsub : ∀ c : Char, c ∈ t4 → c = ' ' ∨ c ∈ s.data := by
      intro c hc
      have h1 := mem_stripPunct hc
      rcases mem_collapseGo _ false c h1 with h2 | h2
      · exact Or.inl h2
      · exact Or.inr (mem_pyStrip (mem_subFD (mem_pyStrip
          (mem_subParen (mem_pyStrip h2)))))
    have hamp4 : '&' ∉ t4 := by
      intro hmem
      rcases hsub '&' hmem with h' | h'
      · cases h'
      · exact hamp h'
    have hpar4 : '(' ∉ t4 := by
      intro hmem
      rcases hsub '(' hmem with h' | h'
      · cases h'
      · exact hpar h'
    have hclean : clean_name s = (⟨t4⟩ : String) := by
      rw [clean_name_ne s hs]
      rw [ht4, unescape_eq_self _ hamp4]
    rw [hclean]
    by_cases h4 : t4 = []
    · rw [h4]; decide
    · have hne4 : (⟨t4⟩ : String) ≠ "" := by
        intro hcon
        exact h4 (by simpa using congrArg String.data hcon)
      have hnorm : normStr t4 :=
        normStr_stripPunct _ (normStr_collapse _).1
    -- head and last of `t4` match neither the punctuation set nor whitespace
      have hpunct_head : ∀ a : Char, t4.head? = some a → punctChar a = false := by
        intro a h
        exact head?_dropWhile punctChar _ a (head?_rdropWhile punctChar _ a h)
      have hpunct_last : ∀ hne : t4 ≠ [], punctChar (t4.getLast hne) = false := by
        intro hne
        exact Bool.eq_false_iff.mpr (List.rdropWhile_last_not punctChar _ hne)
      have hws_head : ∀ a : Char, t4.head? = some a → pyWs a = false := by
        intro a h
        apply Bool.eq_false_iff.mpr
        intro hws
        have ha : a = ' ' := hnorm.1 a (mem_of_head? h) hws
        have := hpunct_head a h
        rw [ha] at this
        exact absurd this (by decide)
      have hws_last : ∀ hne : t4 ≠ [], pyWs (t4.getLast hne) = false := by
        intro hne
        apply Bool.eq_false_iff.mpr
        intro hws
        have ha : t4.getLast hne = ' ' :=
          hnorm.1 _ (List.getLast_mem hne) hws
        have := hpunct_last hne
        rw [ha] at this
        exact absurd this (by decide)
      have hfm : noFM t4 := by
        apply noFM_stripPunct
        apply noFM_collapseGo _ false
        apply noFM_pyStrip
        apply noFM_of_take_eq
          (List.prefix_iff_eq_take.mp (subParen_pre _))
        exact noFM_pyStrip _ (noFM_subFD _)
      have s1 : pyStrip t4 = t4 := pyStrip_eq_self t4 hws_head hws_last
      have s2 : subFD t4 = t4 := subFD_eq_self t4 hfm
      have s3 : subParen t4 = t4 := subParen_eq_self t4 hpar4
      have s4 : collapseWs t4 = t4 := collapse_eq_self t4 hnorm
      have s5 : stripPunct t4 = t4 :=
        stripPunct_eq_self t4 hpunct_head hpunct_last
      have s6 : unescape t4 = t4 := unescape_eq_self t4 hamp4
      refine Eq.trans (clean_name_ne (⟨t4⟩ : String) hne4) ?_
      show (⟨unescape (stripPunct (collapseWs (pyStrip (subParen
        (pyStrip (subFD (pyStrip t4)))))))⟩ : String) = (⟨t4⟩ : String)
      rw [s1, s2, s1, s3, s1, s4, s5, s6]

/-- Witness for C8 at a concrete `&`-free, `(`-free string. -/
theorem clean_name_idem_witness :
    clean_name (clean_name "Game   Name - ") = clean_name "Game   Name - " :=
  clean_name_idem "Game   Name - " (by decide) (by decide)

/-! ### C7: `extract_games_from_html`'s per-anchor processing

The extractor scans the markup with the anchor regex and processes each
captured `(href, text)` pair in a loop; the model below is that loop,
parameterized by the list of captured pairs (the regex scan itself produces
them in document order). -/

/-- Python `str.strip()` on strings. -/
def pyStripStr (s : String) : String := ⟨pyStrip s.data⟩

/-- Python `s.lstrip("/")`: remove every leading slash. -/
def lstripSlash (s : String) : String :=
  ⟨s.data.dropWhile (fun c => c == '/')⟩

/-- Python `s.startswith("/")`. -/
def startsWithSlash (s : String) : Bool :=
  match s.data with
  | '/' :: _ => true
  | _ => false

/-- Python `s.split("/")[-1]`: everything after the last slash. -/
def lastSlashSegment (s : String) : String :=
  ⟨(s.data.reverse.takeWhile (fun c => !(c == '/'))).reverse⟩

/-- `re.sub(r'-free-download$', '', slug, flags=re.I)`: remove one
case-insensitive `-free-download` suffix. -/
def stripFDSuffix (s : String) : String :=
  if ciStarts "-free-download".data.reverse s.data.reverse then
    ⟨s.data.take (s.data.length - "-free-download".data.length)⟩
  else s

/-- Python `s.replace("-", " ")`. -/
def replaceDashSpace (s : String) : String :=
  ⟨s.data.map (fun c => if c == '-' then ' ' else c)⟩

/-- The anchor loop of `extract_games_from_html`: strip both captures, drop
empty hrefs, rebase relative hrefs against the origin, strip the trailing
slash, derive the name (normalizer first, slug fallback), drop entries with
empty name or href, and deduplicate by href keeping the first occurrence. -/
def processAnchors : List (String × String) → List String → List Entry
  | [], _ => []
  | m :: ms, seen =>
    let raw_href := pyStripStr m.1
    let raw_text := pyStripStr m.2
    if raw_href = "" then processAnchors ms seen
    else
      let href0 := if startsWithSlash raw_href
        then "https://steamrip.com" ++ lstripSlash raw_href
        else raw_href
      let href := rstripSlash href0
      let name0 := clean_name raw_text
      let name := if name0 = "" then
          pyStripStr (replaceDashSpace (stripFDSuffix
            (lastSlashSegment (rstripSlash href))))
        else name0
      if name = "" || href = "" then processAnchors ms seen
      else if seen.contains href then processAnchors ms seen
      else ⟨name, href⟩ :: processAnchors ms (href :: seen)

/-- `extract_games_from_html`, from the captured anchors on. -/
def extract_games_from_html_anchors (ms : List (String × String)) :
    List Entry :=
  processAnchors ms []

/-- C7, code bug.  A matched anchor with the relative href
`/game1-free-download` is emitted with url
`https://steamrip.comgame1-free-download`: the code concatenates the origin
directly with `href.lstrip("/")`, losing the separating slash (and with it
the host boundary), instead of the claimed origin-`/`-path join.  An
absolute href is, as claimed, passed through with only its trailing slash
stripped. -/
theorem extract_rebase_bug :
    extract_games_from_html_anchors
        [("/game1-free-download", "Game One"),
         ("https://steamrip.com/game3-free-download/", "Game Three (2021)")]
      = [⟨"Game One", "https://steamrip.comgame1-free-download"⟩,
         ⟨"Game Three", "https://steamrip.com/game3-free-download"⟩] ∧
    "https://steamrip.comgame1-free-download"
      ≠ "https://steamrip.com" ++ "/" ++ "game1-free-download" := by
  exact ⟨by decide, by decide⟩

end Scraper
